import Mathlib

/-!
Verification of the ontology dependency-graph builder
(`src/celine/ontologies/analyze.py`) against its specification.

The Python module is shallowly embedded: dictionaries become association
lists (`List (κ × α)`) with Python's insertion-order update semantics,
Python strings become `String` manipulated through their character lists,
and the mutable `OntologyAnalyzer` object becomes a state record threaded
through explicit state-passing functions.  The external RDF library is
abstracted by a `splitUri` parameter (the `split_uri` call, `none`
standing for the exception branch) and by representing a parsed graph as
a list of triples of terms.
-/

namespace Onto

/-! ## String helpers (Python string operations used by the module) -/

/-- Python `s.rstrip("/#")`: drop trailing `'/'` and `'#'` characters. -/
def rstripSH (s : String) : String :=
  String.mk ((s.data.reverse.dropWhile (fun c => c = '/' ∨ c = '#')).reverse)

/-- Python `s.rsplit(c, 1)[0]`: everything before the last occurrence of `c`
(only used when `c` occurs in `s`). -/
def beforeLast (c : Char) (s : String) : String :=
  String.mk (((s.data.reverse.dropWhile (fun x => x ≠ c)).drop 1).reverse)

/-- Python `s.split(c)[-1]`: everything after the last occurrence of `c`
(the whole string when `c` does not occur). -/
def afterLast (c : Char) (s : String) : String :=
  String.mk ((s.data.reverse.takeWhile (fun x => x ≠ c)).reverse)

/-- Python `c in s` for a single character. -/
def strContains (s : String) (c : Char) : Bool :=
  s.data.contains c

/-- Python `s.startswith(pre)`, character-wise. -/
def strStartsWith (s pre : String) : Bool :=
  pre.data.isPrefixOf s.data

/-- Python `s[1:]`: drop the first character. -/
def dropFirst (s : String) : String :=
  String.mk s.data.tail

/-- Python `s.lower().replace("-", "_").replace(".", "_")` applied
character-wise, as used by `_make_short_id`. -/
def lowerReplace (s : String) : String :=
  String.mk (s.data.map (fun c =>
    let c := c.toLower
    if c = '-' then '_' else if c = '.' then '_' else c))

/-- Lexicographic comparison of character lists by code point, mirroring
Python's `<=` on strings (used to model `sorted`). -/
def listLex : List Char → List Char → Bool
  | [], _ => true
  | _ :: _, [] => false
  | a :: as, b :: bs =>
    if a.toNat < b.toNat then true
    else if a.toNat = b.toNat then listLex as bs
    else false

/-- Python `s <= t` on strings. -/
def strLe (s t : String) : Bool := listLex s.data t.data

/-- Python `sorted` on a list of strings (Python's sort is stable; for a
total preorder any stable sort produces the same output, so insertion
sort is a faithful model). -/
def sortStrings (l : List String) : List String :=
  l.insertionSort (fun a b => strLe a b = true)

/-! ## `normalize_ns` -/

/-- `normalize_ns` from `analyze.py`: strip trailing `"/"` and `"#"`,
return `None` if the input is `None` or the result is empty. -/
def normalize_ns : Option String → Option String
  | none => none
  | some s =>
    let t := rstripSH s
    if t = "" then none else some t

/-! ### Lemmas about `rstripSH` and `normalize_ns` -/

theorem dropWhile_dropWhile {α : Type} (p : α → Bool) (l : List α) :
    List.dropWhile p (List.dropWhile p l) = List.dropWhile p l := by
  induction l with
  | nil => rfl
  | cons a l ih =>
    by_cases h : p a
    · simp [List.dropWhile_cons, h, ih]
    · simp [List.dropWhile_cons, h]

theorem rstripSH_idem (s : String) : rstripSH (rstripSH s) = rstripSH s := by
  simp [rstripSH, dropWhile_dropWhile]

theorem normalize_ns_idem (o : Option String) :
    normalize_ns (normalize_ns o) = normalize_ns o := by
  cases o with
  | none => rfl
  | some s =>
    by_cases h : rstripSH s = ""
    · simp [normalize_ns, h]
    · simp [normalize_ns, h, rstripSH_idem]

theorem dropWhile_eq_nil_of_forall {α : Type} (p : α → Bool) (l : List α)
    (h : ∀ c ∈ l, p c = true) : List.dropWhile p l = [] := by
  induction l with
  | nil => rfl
  | cons a l ih =>
    have ha : p a = true := h a (by simp)
    have hrest : ∀ c ∈ l, p c = true := fun c hc => h c (by simp [hc])
    simp [List.dropWhile_cons, ha, ih hrest]

/-- A string made of `'/'` and `'#'` only strips to the empty string. -/
theorem rstripSH_eq_empty (s : String)
    (h : ∀ c ∈ s.data, c = '/' ∨ c = '#') : rstripSH s = "" := by
  have hnil : List.dropWhile (fun c => decide (c = '/' ∨ c = '#'))
      s.data.reverse = [] := by
    apply dropWhile_eq_nil_of_forall
    intro c hc
    have hm : c ∈ s.data := List.mem_reverse.mp hc
    exact decide_eq_true (h c hm)
  simp only [rstripSH, hnil, List.reverse_nil]

/-- `normalize_ns` never returns `some ""`. -/
theorem normalize_ns_ne_empty (o : Option String) (s : String)
    (h : normalize_ns o = some s) : s ≠ "" := by
  cases o with
  | none => simp [normalize_ns] at h
  | some t =>
    by_cases ht : rstripSH t = ""
    · simp [normalize_ns, ht] at h
    · simp [normalize_ns, ht] at h
      intro hs
      exact ht (h.trans hs)

/-- The output of `normalize_ns` is a fixed point of `normalize_ns`. -/
theorem normalize_ns_fix (o : Option String) (s : String)
    (h : normalize_ns o = some s) : normalize_ns (some s) = some s := by
  have := normalize_ns_idem o
  rw [h] at this
  exact this

/-! ## Association lists: the model of Python dictionaries

A `dict` is a list of key/value pairs in insertion order.  Assignment
updates an existing key in place or appends a fresh key at the end,
exactly as Python dictionaries behave. -/

/-- Dictionary lookup (first matching key). -/
def alGet {κ α : Type} [DecidableEq κ] (l : List (κ × α)) (k : κ) : Option α :=
  match l with
  | [] => none
  | (k', v) :: rest => if k' = k then some v else alGet rest k

/-- Dictionary update: `d[k] = f(d.get(k))`, preserving insertion order and
appending a fresh key at the end. -/
def alUpdate {κ α : Type} [DecidableEq κ] (l : List (κ × α)) (k : κ)
    (f : Option α → α) : List (κ × α) :=
  match l with
  | [] => [(k, f none)]
  | (k', v) :: rest =>
    if k' = k then (k', f (some v)) :: rest else (k', v) :: alUpdate rest k f

/-- Python `set.add` on a set modelled as a duplicate-free list in
insertion order. -/
def setAdd (l : List String) (x : String) : List String :=
  if x ∈ l then l else l ++ [x]

theorem alGet_update_self {κ α : Type} [DecidableEq κ] (l : List (κ × α))
    (k : κ) (f : Option α → α) : alGet (alUpdate l k f) k = some (f (alGet l k)) := by
  induction l with
  | nil => simp [alGet, alUpdate]
  | cons p rest ih =>
    obtain ⟨k', v⟩ := p
    by_cases h : k' = k
    · subst h
      simp [alGet, alUpdate]
    · simp [alGet, alUpdate, h, ih]

theorem alGet_update_ne {κ α : Type} [DecidableEq κ] (l : List (κ × α))
    (k j : κ) (f : Option α → α) (h : k ≠ j) :
    alGet (alUpdate l k f) j = alGet l j := by
  induction l with
  | nil => simp [alGet, alUpdate, h]
  | cons p rest ih =>
    obtain ⟨k', v⟩ := p
    by_cases hk : k' = k
    · subst hk
      simp [alGet, alUpdate, h]
    · by_cases hj : k' = j
      · subst hj
        simp [alGet, alUpdate, hk]
      · simp [alGet, alUpdate, hk, hj, ih]

/-- The keys of an association list. -/
def alKeys {κ α : Type} (l : List (κ × α)) : List κ := l.map (·.1)

theorem alKeys_update {κ α : Type} [DecidableEq κ] (l : List (κ × α))
    (k : κ) (f : Option α → α) :
    alKeys (alUpdate l k f) = if (alGet l k).isSome then alKeys l else alKeys l ++ [k] := by
  induction l with
  | nil => simp [alKeys, alUpdate, alGet]
  | cons p rest ih =>
    obtain ⟨k', v⟩ := p
    by_cases h : k' = k
    · subst h
      simp [alKeys, alUpdate, alGet]
    · simp only [alUpdate, alGet, if_neg h, alKeys, List.map_cons]
      by_cases hs : (alGet rest k).isSome
      · simp only [alKeys] at ih
        simp [hs, ih]
      · simp only [alKeys] at ih
        simp [hs, ih]

theorem alGet_isSome_iff_mem_keys {κ α : Type} [DecidableEq κ]
    (l : List (κ × α)) (k : κ) : (alGet l k).isSome ↔ k ∈ alKeys l := by
  induction l with
  | nil => simp [alGet, alKeys]
  | cons p rest ih =>
    obtain ⟨k', v⟩ := p
    by_cases h : k' = k
    · subst h
      simp [alGet, alKeys]
    · simp [alGet, alKeys, h, ih, Ne.symm h]

theorem alKeys_update_nodup {κ α : Type} [DecidableEq κ] (l : List (κ × α))
    (k : κ) (f : Option α → α) (h : (alKeys l).Nodup) :
    (alKeys (alUpdate l k f)).Nodup := by
  rw [alKeys_update]
  by_cases hs : (alGet l k).isSome
  · simp [hs, h]
  · have hk : k ∉ alKeys l := by
      intro hm
      exact hs ((alGet_isSome_iff_mem_keys l k).mpr hm)
    simp only [hs, if_false]
    simp [List.nodup_append, h, hk]

theorem alGet_map_of_fst {κ α β : Type} [DecidableEq κ] (l : List (κ × α))
    (f : κ → β) : ∀ k, alGet (l.map (fun p => (p.1, f p.1))) k = (alGet l k).map (fun _ => f k) := by
  induction l with
  | nil => intro k; simp [alGet]
  | cons p rest ih =>
    intro k
    obtain ⟨k', v⟩ := p
    by_cases h : k' = k
    · subst h
      simp [alGet]
    · simp [alGet, h, ih]

/-- Every entry of an updated association list satisfies `Q` when the old
entries do and the update function maintains it at key `k`. -/
theorem alUpdate_forall {κ α : Type} [DecidableEq κ] (l : List (κ × α))
    (k : κ) (f : Option α → α) (Q : κ × α → Prop)
    (hl : ∀ x ∈ l, Q x)
    (hf : ∀ v : Option α, (∀ e, v = some e → Q (k, e)) → Q (k, f v)) :
    ∀ x ∈ alUpdate l k f, Q x := by
  induction l with
  | nil =>
    intro x hx
    simp [alUpdate] at hx
    subst hx
    exact hf none (by intro e h; cases h)
  | cons p rest ih =>
    obtain ⟨k', v⟩ := p
    by_cases h : k' = k
    · subst h
      intro x hx
      simp only [alUpdate, if_pos rfl] at hx
      rcases List.mem_cons.mp hx with h1 | h1
      · subst h1
        exact hf (some v) (by
          intro e he
          cases he
          exact hl (k', v) (by simp))
      · exact hl x (by simp [h1])
    · intro x hx
      simp only [alUpdate, if_neg h] at hx
      rcases List.mem_cons.mp hx with h1 | h1
      · subst h1
        exact hl (k', v) (by simp)
      · exact ih (fun y hy => hl y (by simp [hy])) x h1

/-- A generic accounting lemma: folding `f` over a list adds the sum of a
per-element, state-independent delta to any measure `m`. -/
theorem foldl_measure {α β : Type} (m : β → Nat) (f : β → α → β) (δ : α → Nat)
    (h : ∀ b x, m (f b x) = m b + δ x) :
    ∀ (l : List α) (b : β), m (List.foldl f b l) = m b + (l.map δ).sum := by
  intro l
  induction l with
  | nil => intro b; simp
  | cons a l ih =>
    intro b
    simp only [List.foldl_cons, List.map_cons, List.sum_cons]
    rw [ih (f b a), h b a]
    omega

/-- Folding over a `flatMap` is the nested fold. -/
theorem foldl_flatMap {α β γ : Type} (f : β → γ → β) (h : α → List γ) :
    ∀ (l : List α) (b : β),
      List.foldl f b (l.flatMap h) = List.foldl (fun b x => (h x).foldl f b) b l := by
  intro l
  induction l with
  | nil => intro b; rfl
  | cons a l ih =>
    intro b
    simp only [List.flatMap_cons, List.foldl_append, List.foldl_cons]
    exact ih _

/-! ## RDF terms and vocabulary

An `rdflib` term is a URI reference, a literal, or a blank node; only the
distinction and the underlying string matter to `analyze.py`. -/

inductive Term : Type where
  | uri (val : String)
  | lit (val : String)
  | bnode (val : String)
deriving DecidableEq, Repr

/-- Python `isinstance(t, URIRef)`. -/
def termIsUri : Term → Bool
  | .uri _ => true
  | _ => false

/-- Python `str(term)`. -/
def termStr : Term → String
  | .uri v => v
  | .lit v => v
  | .bnode v => v

abbrev Triple := Term × Term × Term

def RDF_type : Term := .uri "http://www.w3.org/1999/02/22-rdf-syntax-ns#type"
def RDF_Property : Term := .uri "http://www.w3.org/1999/02/22-rdf-syntax-ns#Property"
def RDFS_Class : Term := .uri "http://www.w3.org/2000/01/rdf-schema#Class"
def RDFS_subClassOf : Term := .uri "http://www.w3.org/2000/01/rdf-schema#subClassOf"
def RDFS_subPropertyOf : Term := .uri "http://www.w3.org/2000/01/rdf-schema#subPropertyOf"
def RDFS_seeAlso : Term := .uri "http://www.w3.org/2000/01/rdf-schema#seeAlso"
def RDFS_label : Term := .uri "http://www.w3.org/2000/01/rdf-schema#label"
def RDFS_comment : Term := .uri "http://www.w3.org/2000/01/rdf-schema#comment"
def OWL_Class : Term := .uri "http://www.w3.org/2002/07/owl#Class"
def OWL_ObjectProperty : Term := .uri "http://www.w3.org/2002/07/owl#ObjectProperty"
def OWL_DatatypeProperty : Term := .uri "http://www.w3.org/2002/07/owl#DatatypeProperty"
def OWL_AnnotationProperty : Term := .uri "http://www.w3.org/2002/07/owl#AnnotationProperty"
def OWL_OntologyProperty : Term := .uri "http://www.w3.org/2002/07/owl#OntologyProperty"
def OWL_Ontology : Term := .uri "http://www.w3.org/2002/07/owl#Ontology"
def OWL_imports : Term := .uri "http://www.w3.org/2002/07/owl#imports"
def OWL_equivalentClass : Term := .uri "http://www.w3.org/2002/07/owl#equivalentClass"
def OWL_equivalentProperty : Term := .uri "http://www.w3.org/2002/07/owl#equivalentProperty"
def OWL_sameAs : Term := .uri "http://www.w3.org/2002/07/owl#sameAs"
def OWL_inverseOf : Term := .uri "http://www.w3.org/2002/07/owl#inverseOf"
def DC_title : Term := .uri "http://purl.org/dc/elements/1.1/title"
def DC_description : Term := .uri "http://purl.org/dc/elements/1.1/description"
def DCTERMS_title : Term := .uri "http://purl.org/dc/terms/title"
def DCTERMS_description : Term := .uri "http://purl.org/dc/terms/description"

/-- `OntologyAnalyzer.CLASS_TYPES`. -/
def CLASS_TYPES : List Term := [OWL_Class, RDFS_Class]

/-- `OntologyAnalyzer.PROPERTY_TYPES`. -/
def PROPERTY_TYPES : List Term :=
  [RDF_Property, OWL_ObjectProperty, OWL_DatatypeProperty,
   OWL_AnnotationProperty, OWL_OntologyProperty]

/-- `OntologyAnalyzer.DEP_PREDICATES`. -/
def DEP_PREDICATES : List Term :=
  [RDFS_subClassOf, RDFS_subPropertyOf, OWL_equivalentClass,
   OWL_equivalentProperty, OWL_sameAs, OWL_inverseOf, RDFS_seeAlso]

/-- `OntologyAnalyzer._get_namespace`.  `splitUri` abstracts the external
`rdflib` `split_uri` call; `none` stands for its exception branch. -/
def get_namespace (splitUri : String → Option String) : Term → Option String
  | Term.uri u =>
    (match splitUri u with
     | some ns => normalize_ns (some ns)
     | none =>
       if strContains u '#' then normalize_ns (some (beforeLast '#' u))
       else if strContains u '/' then normalize_ns (some (beforeLast '/' u))
       else none)
  | _ => none

/-- Python truthiness of an optional string. -/
def truthy : Option String → Bool
  | none => false
  | some s => !(s = "")

/-- Python truthiness of `None`-or-empty for label/description fields. -/
def optFalsy : Option String → Bool
  | none => true
  | some s => (s = "")

/-! ## The `OntologyAnalyzer` state -/

/-- The `OntologyStats` dataclass (sets modelled as duplicate-free lists
in insertion order). -/
structure OntologyStats : Type where
  namespace_ : String
  files : List String
  triples : Nat
  classes : Nat
  properties : Nat
  individuals : Nat
  importsField : List String
  label : Option String
  description : Option String
deriving DecidableEq, Repr

def emptyStats (ns : String) : OntologyStats :=
  ⟨ns, [], 0, 0, 0, 0, [], none, none⟩

/-- The three accumulators of `OntologyAnalyzer`. -/
structure Analyzer : Type where
  namespaces : List (String × OntologyStats)
  references : List (String × List (String × Nat))
  importsTable : List (String × List String)
deriving DecidableEq, Repr

def Analyzer.initState : Analyzer := ⟨[], [], []⟩

/-- The namespace keys currently holding a Statistics entry. -/
def nsKeys (a : Analyzer) : List String := alKeys a.namespaces

/-- The key under which `_ensure_ns` stores a raw namespace. -/
def ensureKey (raw : Option String) : String :=
  (normalize_ns (some (raw.getD "unknown"))).getD "unknown"

/-- `OntologyAnalyzer._ensure_ns` (the entry-creating part). -/
def Analyzer.ensure_ns (a : Analyzer) (raw : Option String) : Analyzer :=
  let ns := ensureKey raw
  if (alGet a.namespaces ns).isSome then a
  else { a with namespaces := a.namespaces ++ [(ns, emptyStats ns)] }

/-- `_ensure_ns` followed by a mutation of the returned (aliased) stats
record, as in `stats = self._ensure_ns(…); stats.x += 1`. -/
def Analyzer.modifyStats (a : Analyzer) (raw : Option String)
    (f : OntologyStats → OntologyStats) : Analyzer :=
  let a' := a.ensure_ns raw
  { a' with
    namespaces :=
      alUpdate a'.namespaces (ensureKey raw)
        (fun v => f (v.getD (emptyStats (ensureKey raw)))) }

/-- `OntologyAnalyzer._register_reference`. -/
def Analyzer.register_reference (a : Analyzer) (rawSrc rawDst : Option String)
    (weight : Nat) : Analyzer :=
  match normalize_ns rawSrc, normalize_ns rawDst with
  | some src, some dst =>
    if src = "" ∨ dst = "" ∨ src = dst then a
    else
      { a with
        references :=
          alUpdate a.references src
            (fun inner => alUpdate (inner.getD []) dst (fun c => c.getD 0 + weight)) }
  | _, _ => a

/-- `OntologyAnalyzer._register_import`. -/
def Analyzer.register_import (a : Analyzer) (rawSrc rawDst : Option String) : Analyzer :=
  match normalize_ns rawSrc, normalize_ns rawDst with
  | some src, some dst =>
    if src = "" ∨ dst = "" ∨ src = dst then a
    else
      let a' := { a with
        importsTable := alUpdate a.importsTable src (fun cur => setAdd (cur.getD []) dst) }
      a'.register_reference (some src) (some dst) 1
  | _, _ => a

/-- The weight recorded in the Reference Table for a pair of namespaces. -/
def refWeight (a : Analyzer) (src dst : String) : Option Nat :=
  (alGet a.references src).bind (fun inner => alGet inner dst)

/-- The destination set recorded in the Import Table for a source. -/
def importsOf (a : Analyzer) (src : String) : List String :=
  (alGet a.importsTable src).getD []

/-! ## Triple processing -/

/-- The classification step of `process_rdf_graph` for an `rdf:type`
object. -/
def classifyObject (o : Term) (st : OntologyStats) : OntologyStats :=
  if o ∈ CLASS_TYPES then { st with classes := st.classes + 1 }
  else if o ∈ PROPERTY_TYPES then { st with properties := st.properties + 1 }
  else { st with individuals := st.individuals + 1 }

/-- `OntologyAnalyzer._process_dependencies_for_triple`. -/
def process_dependencies_for_triple (splitUri : String → Option String)
    (a : Analyzer) (s p o : Term) : Analyzer :=
  let s_ns := if termIsUri s then get_namespace splitUri s else none
  let p_ns := if termIsUri p then get_namespace splitUri p else none
  let o_ns := if termIsUri o then get_namespace splitUri o else none
  let a1 := if truthy s_ns ∧ truthy p_ns ∧ s_ns ≠ p_ns
    then a.register_reference s_ns p_ns 1 else a
  let a2 := if p = RDF_type ∧ truthy s_ns ∧ truthy o_ns ∧ s_ns ≠ o_ns
    then a1.register_reference s_ns o_ns 1 else a1
  if p ∈ DEP_PREDICATES ∧ truthy s_ns ∧ truthy o_ns ∧ s_ns ≠ o_ns
    then a2.register_reference s_ns o_ns 1 else a2

/-- The body of the triple loop of `process_rdf_graph`. -/
def processTriple (splitUri : String → Option String) (fileStr : String)
    (a : Analyzer) (t : Triple) : Analyzer :=
  let s := t.1
  let p := t.2.1
  let o := t.2.2
  let a1 := if termIsUri s then
      (match get_namespace splitUri s with
       | some sns =>
         if sns = "" then a
         else a.modifyStats (some sns)
           (fun st => { st with files := setAdd st.files fileStr, triples := st.triples + 1 })
       | none => a)
    else a
  let a2 := if p = RDF_type ∧ termIsUri s ∧ termIsUri o then
      (match get_namespace splitUri s with
       | some sns =>
         if sns = "" then a1
         else a1.modifyStats (some sns) (classifyObject o)
       | none => a1)
    else a1
  process_dependencies_for_triple splitUri a2 s p o

/-- `g.subjects(p, o)` on a graph modelled as a triple list. -/
def subjectsOf (g : List Triple) (p o : Term) : List Term :=
  (g.filter (fun t => decide (t.2.1 = p ∧ t.2.2 = o))).map (·.1)

/-- `g.objects(s, p)` on a graph modelled as a triple list. -/
def objectsOf (g : List Triple) (s p : Term) : List Term :=
  (g.filter (fun t => decide (t.1 = s ∧ t.2.1 = p))).map (·.2.2)

/-- The body of the `owl:imports` inner loop of `process_rdf_graph`. -/
def ontoImportStep (splitUri : String → Option String) (onto_ns : Option String)
    (acc2 : Analyzer) (imported : Term) : Analyzer :=
  if termIsUri imported then
    let imp_ns := get_namespace splitUri imported
    (acc2.ensure_ns imp_ns).register_import onto_ns imp_ns
  else acc2

/-- The body of the ontology loop of `process_rdf_graph`. -/
def ontoStep (splitUri : String → Option String) (filePath : String)
    (g : List Triple) (acc : Analyzer) (onto : Term) : Analyzer :=
  if termIsUri onto then
    let onto_ns := get_namespace splitUri onto
    let acc1 := acc.modifyStats onto_ns
      (fun st => { st with files := setAdd st.files filePath })
    (objectsOf g onto OWL_imports).foldl (ontoImportStep splitUri onto_ns) acc1
  else acc

/-- `OntologyAnalyzer.process_rdf_graph`. -/
def process_rdf_graph (splitUri : String → Option String) (filePath : String)
    (g : List Triple) (a : Analyzer) : Analyzer :=
  let a1 := g.foldl (processTriple splitUri filePath) a
  (subjectsOf g RDF_type OWL_Ontology).foldl (ontoStep splitUri filePath g) a1

/-- `OntologyAnalyzer.process_xsd`.  XML parsing is external, so the parsed
content (the `targetNamespace` attribute and the `xsd:import` namespace
attributes) is passed in directly. -/
def xsdImportStep (tns : String) (acc : Analyzer) (nsRaw : Option String) : Analyzer :=
  match normalize_ns nsRaw with
  | some ns =>
    if ns = "" then acc
    else (acc.ensure_ns (some ns)).register_import (some tns) (some ns)
  | none => acc

def process_xsd (filePath fileName : String) (targetNs : Option String)
    (importNss : List (Option String)) (a : Analyzer) : Analyzer :=
  let tns := (normalize_ns targetNs).getD ("file://" ++ fileName)
  let a1 := a.modifyStats (some tns)
    (fun st => { st with files := setAdd st.files filePath })
  importNss.foldl (xsdImportStep tns) a1

/-- Python `xs or ys or zs` on lists. -/
def firstNonempty (a b c : List Term) : List Term :=
  if a ≠ [] then a else if b ≠ [] then b else c

/-- The per-ontology body of `attach_descriptions_from_graph`. -/
def attachStep (splitUri : String → Option String) (g : List Triple)
    (acc : Analyzer) (onto : Term) : Analyzer :=
  if termIsUri onto then
      let ns := get_namespace splitUri onto
      let acc1 := acc.ensure_ns ns
      let key := ensureKey ns
      let labels := firstNonempty (objectsOf g onto RDFS_label)
        (objectsOf g onto DCTERMS_title) (objectsOf g onto DC_title)
      let acc2 := match labels with
        | [] => acc1
        | l0 :: _ =>
          { acc1 with
            namespaces := alUpdate acc1.namespaces key (fun v =>
              let st := v.getD (emptyStats key)
              if optFalsy st.label then { st with label := some (termStr l0) } else st) }
      let descs := firstNonempty (objectsOf g onto DCTERMS_description)
        (objectsOf g onto RDFS_comment) (objectsOf g onto DC_description)
      match descs with
      | [] => acc2
      | d0 :: _ =>
        { acc2 with
          namespaces := alUpdate acc2.namespaces key (fun v =>
            let st := v.getD (emptyStats key)
            if optFalsy st.description then { st with description := some (termStr d0) } else st) }
    else acc

/-- `OntologyAnalyzer.attach_descriptions_from_graph`. -/
def attach_descriptions_from_graph (splitUri : String → Option String)
    (g : List Triple) (a : Analyzer) : Analyzer :=
  (subjectsOf g RDF_type OWL_Ontology).foldl (attachStep splitUri g) a

/-- One processed input file: a parsed RDF graph or a parsed XSD schema. -/
inductive AnalyzerOp : Type where
  | rdfGraph (filePath : String) (g : List Triple)
  | xsd (filePath fileName : String) (targetNs : Option String)
      (importNss : List (Option String))

def runOp (splitUri : String → Option String) (a : Analyzer) : AnalyzerOp → Analyzer
  | .rdfGraph f g => process_rdf_graph splitUri f g a
  | .xsd fp fn tns imps => process_xsd fp fn tns imps a

/-- A full accumulation run of the analyzer over a sequence of files,
starting from the freshly constructed (empty) state. -/
def runOps (splitUri : String → Option String) (ops : List AnalyzerOp) : Analyzer :=
  ops.foldl (runOp splitUri) Analyzer.initState

/-! ## Finalization: id map, nodes, edges, rankings -/

/-- `OntologyAnalyzer._make_short_id`. -/
def make_short_id (ns : String) (fallbackIndex : Nat) : String :=
  let s := rstripSH ns
  if s = "" then "ns" ++ toString fallbackIndex
  else
    let last := afterLast '#' (afterLast '/' s)
    let r := lowerReplace last
    if r = "" then "ns" ++ toString fallbackIndex else r

/-- Step 1 of `_build_id_map`: declared prefixes of the merged graph.
`prefixes` models `merged_graph.namespace_manager.namespaces()` as
(prefix, namespace) pairs. -/
def prefixPhase (a : Analyzer) (prefixes : List (String × String)) :
    List (String × String) :=
  prefixes.foldl (fun m pq =>
    match normalize_ns (some pq.2) with
    | some nsStr =>
      if (alGet a.namespaces nsStr).isSome ∧ alGet m nsStr = none
      then alUpdate m nsStr (fun _ => pq.1) else m
    | none => m) []

/-- Step 2 of `_build_id_map`: the fallback loop with its counter. -/
def fallbackPhase (start : List (String × String) × Nat) (nsList : List String) :
    List (String × String) × Nat :=
  nsList.foldl (fun mc ns =>
    if alGet mc.1 ns = none
    then (alUpdate mc.1 ns (fun _ => make_short_id ns mc.2), mc.2 + 1)
    else mc) start

/-- `OntologyAnalyzer._build_id_map`. -/
def build_id_map (a : Analyzer) (prefixes : List (String × String)) :
    List (String × String) :=
  (fallbackPhase (prefixPhase a prefixes, 1) (sortStrings (nsKeys a))).1

def sumVals (l : List (String × Nat)) : Nat := (l.map (·.2)).sum

/-- One `incoming[dst] += count` step (guarded by `dst in incoming`). -/
def incStep (inc2 : List (String × Nat)) (dc : String × Nat) : List (String × Nat) :=
  if (alGet inc2 dc.1).isSome
  then alUpdate inc2 dc.1 (fun v => v.getD 0 + dc.2) else inc2

/-- The `incoming` computation of `build_result_document`. -/
def incomingMap (a : Analyzer) : List (String × Nat) :=
  a.references.foldl (fun inc st => st.2.foldl incStep inc)
    (a.namespaces.map (fun p => (p.1, 0)))

/-- The `outgoing` computation of `build_result_document`. -/
def outgoingMap (a : Analyzer) : List (String × Nat) :=
  a.namespaces.map (fun p => (p.1, sumVals ((alGet a.references p.1).getD [])))

/-- One node of the output document. -/
structure NodeDoc : Type where
  id : String
  namespace_ : String
  label : String
  description : Option String
  triples : Nat
  classes : Nat
  properties : Nat
  individuals : Nat
  files : List String
  importsField : List String
  incoming_references : Nat
  outgoing_references : Nat
deriving DecidableEq, Repr

/-- Python `x or d` for an optional string against a default. -/
def orDefault (o : Option String) (d : String) : String :=
  match o with
  | some s => if s = "" then d else s
  | none => d

/-- `sorted(self.namespaces.items())` (keys are distinct, so comparison by
key equals Python's tuple comparison). -/
def sortByKey (l : List (String × OntologyStats)) : List (String × OntologyStats) :=
  l.insertionSort (fun p q => strLe p.1 q.1 = true)

/-- The node-building loop of `build_result_document`. -/
def mkNodes (a : Analyzer) (idMap : List (String × String))
    (inc outg : List (String × Nat)) : List NodeDoc :=
  (sortByKey a.namespaces).map (fun p =>
    let ns := p.1
    let stats := p.2
    let node_id := (alGet idMap ns).getD ""
    { id := node_id
      namespace_ := ns
      label := orDefault stats.label node_id
      description := stats.description
      triples := stats.triples
      classes := stats.classes
      properties := stats.properties
      individuals := stats.individuals
      files := sortStrings stats.files
      importsField := sortStrings ((alGet a.importsTable ns).getD [])
      incoming_references := (alGet inc ns).getD 0
      outgoing_references := (alGet outg ns).getD 0 })

/-- One edge of the output document (`import` is a Lean keyword, hence
the field name `importFlag`). -/
structure EdgeDoc : Type where
  source : String
  target : String
  reference_count : Nat
  importFlag : Bool
deriving DecidableEq, Repr

/-- `id_map.get(ns)` followed by the `if not …: continue` truthiness test. -/
def idLookup (idMap : List (String × String)) (ns : String) : Option String :=
  match alGet idMap ns with
  | some s => if s = "" then none else some s
  | none => none

/-- `edge_map.setdefault(key, …)["reference_count"] += ref_count`. -/
def edgeAddRef (m : List ((String × String) × EdgeDoc)) (si di : String)
    (c : Nat) : List ((String × String) × EdgeDoc) :=
  alUpdate m (si, di) (fun v =>
    match v with
    | some e => { e with reference_count := e.reference_count + c }
    | none => { source := si, target := di, reference_count := c, importFlag := false })

/-- `edge_map.setdefault(key, …)["import"] = True`. -/
def edgeSetImp (m : List ((String × String) × EdgeDoc)) (si di : String) :
    List ((String × String) × EdgeDoc) :=
  alUpdate m (si, di) (fun v =>
    match v with
    | some e => { e with importFlag := true }
    | none => { source := si, target := di, reference_count := 0, importFlag := true })

/-- Inner loop of the reference section of the edge builder. -/
def refEdgeInner (idMap : List (String × String)) (si : String)
    (m2 : List ((String × String) × EdgeDoc)) (dc : String × Nat) :
    List ((String × String) × EdgeDoc) :=
  match idLookup idMap dc.1 with
  | none => m2
  | some di => edgeAddRef m2 si di dc.2

/-- Outer loop body of the reference section of the edge builder. -/
def refEdgeStep (idMap : List (String × String))
    (m : List ((String × String) × EdgeDoc)) (st : String × List (String × Nat)) :
    List ((String × String) × EdgeDoc) :=
  match idLookup idMap st.1 with
  | none => m
  | some si => st.2.foldl (refEdgeInner idMap si) m

/-- Inner loop of the `owl:imports` section of the edge builder. -/
def impEdgeInner (idMap : List (String × String)) (si : String)
    (m2 : List ((String × String) × EdgeDoc)) (d : String) :
    List ((String × String) × EdgeDoc) :=
  match idLookup idMap d with
  | none => m2
  | some di => edgeSetImp m2 si di

/-- Outer loop body of the `owl:imports` section of the edge builder. -/
def impEdgeStep (idMap : List (String × String))
    (m : List ((String × String) × EdgeDoc)) (sd : String × List String) :
    List ((String × String) × EdgeDoc) :=
  match idLookup idMap sd.1 with
  | none => m
  | some si => sd.2.foldl (impEdgeInner idMap si) m

/-- The edge-building section of `build_result_document`. -/
def mkEdgeMap (a : Analyzer) (idMap : List (String × String)) :
    List ((String × String) × EdgeDoc) :=
  let m1 := a.references.foldl (refEdgeStep idMap) []
  a.importsTable.foldl (impEdgeStep idMap) m1

def mkEdges (a : Analyzer) (idMap : List (String × String)) : List EdgeDoc :=
  (mkEdgeMap a idMap).map (·.2)

/-- One entry of the two ranking lists (the numeric field stands for
`incoming_references` respectively `outgoing_references`). -/
structure RankEntry : Type where
  id : String
  namespace_ : String
  label : String
  refs : Nat
deriving DecidableEq, Repr

/-- `sorted(nodes, key=…, reverse=True)` — a stable descending sort. -/
def sortByIncomingDesc (nodes : List NodeDoc) : List NodeDoc :=
  nodes.insertionSort (fun n m => m.incoming_references ≤ n.incoming_references)

def sortByOutgoingDesc (nodes : List NodeDoc) : List NodeDoc :=
  nodes.insertionSort (fun n m => m.outgoing_references ≤ n.outgoing_references)

def projIncoming (n : NodeDoc) : RankEntry :=
  ⟨n.id, n.namespace_, n.label, n.incoming_references⟩

def projOutgoing (n : NodeDoc) : RankEntry :=
  ⟨n.id, n.namespace_, n.label, n.outgoing_references⟩

/-- The final document. -/
structure ResultDoc : Type where
  ontologies : List NodeDoc
  nodes : List NodeDoc
  edges : List EdgeDoc
  most_referenced : List RankEntry
  largest_consumers : List RankEntry
deriving DecidableEq, Repr

/-- `OntologyAnalyzer.build_result_document`. -/
def build_result_document (splitUri : String → Option String) (g : List Triple)
    (a : Analyzer) (prefixes : List (String × String)) : ResultDoc :=
  let a' := attach_descriptions_from_graph splitUri g a
  let idMap := build_id_map a' prefixes
  let inc := incomingMap a'
  let outg := outgoingMap a'
  let nodes := mkNodes a' idMap inc outg
  let edges := mkEdges a' idMap
  { ontologies := nodes
    nodes := nodes
    edges := edges
    most_referenced := (sortByIncomingDesc nodes).map projIncoming
    largest_consumers := (sortByOutgoingDesc nodes).map projOutgoing }

/-! ## Keyword filtering -/

/-- The sidecar metadata record: only its keyword list matters
(`metadata.get("keywords") or []`). -/
structure MetaRecord : Type where
  keywords : List String
deriving DecidableEq, Repr

/-- The pattern-classification loop of `matches_keywords`
(accumulator: includes, excludes, star). -/
def classifyPattern (acc : List String × List String × Bool) (p : String) :
    List String × List String × Bool :=
  if p = "*" then (acc.1, acc.2.1, true)
  else if strStartsWith p "+" then (acc.1 ++ [dropFirst p], acc.2.1, acc.2.2)
  else if strStartsWith p "-" then (acc.1, acc.2.1 ++ [dropFirst p], acc.2.2)
  else (acc.1 ++ [p], acc.2.1, acc.2.2)

/-- `matches_keywords` from `analyze.py`. -/
def matches_keywords (metadata : MetaRecord) (patterns : List String) : Bool :=
  if patterns = [] then true
  else
    let kws := metadata.keywords
    let acc := patterns.foldl classifyPattern ([], [], false)
    let includes := acc.1
    let excludes := acc.2.1
    let star := acc.2.2
    if star then !(excludes.any (fun e => e ∈ kws))
    else (includes.all (fun i => i ∈ kws)) && !(kws.any (fun e => e ∈ excludes))

/-- The keyword-filtering step of `analyze_ontologies` (applied when the
keyword list is non-empty). -/
def apply_keyword_filter (metaOf : String → Option MetaRecord)
    (keywords : List String) (doc : ResultDoc) : ResultDoc :=
  if keywords = [] then doc
  else
    let ok := fun (n : NodeDoc) =>
      matches_keywords ((metaOf n.namespace_).getD ⟨[]⟩) keywords
    let filteredNodes := doc.nodes.filter ok
    let keepIds := filteredNodes.map (·.id)
    let filteredEdges := doc.edges.filter
      (fun (e : EdgeDoc) => decide (e.source ∈ keepIds) && decide (e.target ∈ keepIds))
    { ontologies := filteredNodes
      nodes := filteredNodes
      edges := filteredEdges
      most_referenced := doc.most_referenced
      largest_consumers := doc.largest_consumers }

/-! ## Basic facts about the state operations -/

theorem setAdd_mem (l : List String) (x y : String) :
    y ∈ setAdd l x ↔ y ∈ l ∨ y = x := by
  by_cases h : x ∈ l
  · simp only [setAdd, if_pos h]
    constructor
    · intro hy; exact Or.inl hy
    · intro hy; rcases hy with hy | hy
      · exact hy
      · subst hy; exact h
  · simp [setAdd, if_neg h]

theorem ensure_ns_def (a : Analyzer) (raw : Option String) :
    a.ensure_ns raw =
      if (alGet a.namespaces (ensureKey raw)).isSome then a
      else { a with namespaces := a.namespaces ++ [(ensureKey raw, emptyStats (ensureKey raw))] } :=
  rfl

theorem ensure_ns_references (a : Analyzer) (raw : Option String) :
    (a.ensure_ns raw).references = a.references := by
  rw [ensure_ns_def]
  split <;> rfl

theorem ensure_ns_importsTable (a : Analyzer) (raw : Option String) :
    (a.ensure_ns raw).importsTable = a.importsTable := by
  rw [ensure_ns_def]
  split <;> rfl

theorem modifyStats_references (a : Analyzer) (raw : Option String)
    (f : OntologyStats → OntologyStats) :
    (a.modifyStats raw f).references = a.references := by
  unfold Analyzer.modifyStats
  simp [ensure_ns_references]

theorem modifyStats_importsTable (a : Analyzer) (raw : Option String)
    (f : OntologyStats → OntologyStats) :
    (a.modifyStats raw f).importsTable = a.importsTable := by
  unfold Analyzer.modifyStats
  simp [ensure_ns_importsTable]

theorem nsKeys_ensure_sub (a : Analyzer) (raw : Option String) :
    nsKeys a ⊆ nsKeys (a.ensure_ns raw) := by
  rw [ensure_ns_def]
  unfold nsKeys
  split
  · exact fun x h => h
  · intro x h
    simp only [alKeys, List.map_append]
    exact List.mem_append_left _ h

theorem nsKeys_ensure_mem (a : Analyzer) (raw : Option String) :
    ensureKey raw ∈ nsKeys (a.ensure_ns raw) := by
  rw [ensure_ns_def]
  unfold nsKeys
  split
  · next h => exact (alGet_isSome_iff_mem_keys _ _).mp h
  · simp [alKeys]

theorem nsKeys_ensure_nodup (a : Analyzer) (raw : Option String)
    (h : (nsKeys a).Nodup) : (nsKeys (a.ensure_ns raw)).Nodup := by
  rw [ensure_ns_def]
  unfold nsKeys
  split
  · exact h
  · next hn =>
    have hk : ensureKey raw ∉ nsKeys a := by
      intro hm
      exact hn ((alGet_isSome_iff_mem_keys _ _).mpr hm)
    simp only [alKeys, List.map_append, List.map_cons, List.map_nil]
    refine List.Nodup.append h (by simp) ?_
    intro x hx hy
    simp at hy
    subst hy
    exact hk (by simpa [nsKeys, alKeys] using hx)

theorem nsKeys_modify (a : Analyzer) (raw : Option String)
    (f : OntologyStats → OntologyStats) :
    nsKeys (a.modifyStats raw f) = nsKeys (a.ensure_ns raw) := by
  have hmem : (alGet (a.ensure_ns raw).namespaces (ensureKey raw)).isSome := by
    rw [alGet_isSome_iff_mem_keys]
    exact nsKeys_ensure_mem a raw
  show alKeys (alUpdate (a.ensure_ns raw).namespaces (ensureKey raw) _) = _
  rw [alKeys_update]
  simp [hmem]
  rfl

theorem nsKeys_modify_sub (a : Analyzer) (raw : Option String)
    (f : OntologyStats → OntologyStats) :
    nsKeys a ⊆ nsKeys (a.modifyStats raw f) := by
  rw [nsKeys_modify]
  exact nsKeys_ensure_sub a raw

theorem nsKeys_modify_mem (a : Analyzer) (raw : Option String)
    (f : OntologyStats → OntologyStats) :
    ensureKey raw ∈ nsKeys (a.modifyStats raw f) := by
  rw [nsKeys_modify]
  exact nsKeys_ensure_mem a raw

theorem nsKeys_modify_nodup (a : Analyzer) (raw : Option String)
    (f : OntologyStats → OntologyStats) (h : (nsKeys a).Nodup) :
    (nsKeys (a.modifyStats raw f)).Nodup := by
  rw [nsKeys_modify]
  exact nsKeys_ensure_nodup a raw h

theorem register_reference_namespaces (a : Analyzer) (rs rd : Option String)
    (w : Nat) : (a.register_reference rs rd w).namespaces = a.namespaces := by
  unfold Analyzer.register_reference
  cases normalize_ns rs <;> cases normalize_ns rd <;> simp
  split <;> rfl

theorem register_reference_importsTable (a : Analyzer) (rs rd : Option String)
    (w : Nat) : (a.register_reference rs rd w).importsTable = a.importsTable := by
  unfold Analyzer.register_reference
  cases normalize_ns rs <;> cases normalize_ns rd <;> simp
  split <;> rfl

theorem register_import_namespaces (a : Analyzer) (rs rd : Option String) :
    (a.register_import rs rd).namespaces = a.namespaces := by
  unfold Analyzer.register_import
  cases normalize_ns rs <;> cases normalize_ns rd <;> simp
  split
  · rfl
  · rw [register_reference_namespaces]

/-- Effect on the nested weight table of the update performed by
`_register_reference`. -/
theorem refTable_update (refs : List (String × List (String × Nat)))
    (s d : String) (w : Nat) (x y : String) :
    (alGet (alUpdate refs s
        (fun inner => alUpdate (inner.getD []) d (fun c => c.getD 0 + w))) x).bind
      (fun inner => alGet inner y) =
      if x = s ∧ y = d
      then some (((alGet refs x).bind (fun i => alGet i y)).getD 0 + w)
      else (alGet refs x).bind (fun i => alGet i y) := by
  by_cases hxy : x = s ∧ y = d
  · rw [if_pos hxy]
    obtain ⟨hx, hy⟩ := hxy
    subst hx
    subst hy
    rw [alGet_update_self]
    cases hold : alGet refs x with
    | none => simp [alGet_update_self, alGet, hold]
    | some inner => simp [alGet_update_self, hold]
  · rw [if_neg hxy]
    by_cases hx : x = s
    · subst hx
      have hy : d ≠ y := fun h => hxy ⟨rfl, h.symm⟩
      rw [alGet_update_self]
      show alGet (alUpdate ((alGet refs x).getD []) d fun c => c.getD 0 + w) y = _
      rw [alGet_update_ne _ _ _ _ hy]
      cases hold : alGet refs x with
      | none => simp [alGet, hold]
      | some inner => simp [hold]
    · rw [alGet_update_ne _ _ _ _ (fun hsx => hx hsx.symm)]

/-- Full characterization of how `_register_reference` changes the
Reference Table weights. -/
theorem refWeight_register_reference (a : Analyzer) (rs rd : Option String)
    (w : Nat) (x y : String) :
    refWeight (a.register_reference rs rd w) x y =
      (match normalize_ns rs, normalize_ns rd with
       | some s, some d =>
         if s = "" ∨ d = "" ∨ s = d then refWeight a x y
         else if x = s ∧ y = d then some ((refWeight a x y).getD 0 + w)
         else refWeight a x y
       | _, _ => refWeight a x y) := by
  cases h1 : normalize_ns rs with
  | none => simp [Analyzer.register_reference, h1]
  | some s =>
    cases h2 : normalize_ns rd with
    | none => simp [Analyzer.register_reference, h1, h2]
    | some d =>
      by_cases hg : s = "" ∨ d = "" ∨ s = d
      · simp [Analyzer.register_reference, h1, h2, hg]
      · simp only [Analyzer.register_reference, h1, h2, if_neg hg]
        exact refTable_update a.references s d w x y

theorem importsOf_register_reference (a : Analyzer) (rs rd : Option String)
    (w : Nat) (x : String) :
    importsOf (a.register_reference rs rd w) x = importsOf a x := by
  simp [importsOf, register_reference_importsTable]

/-- How `_register_import` changes the Import Table. -/
theorem importsOf_register_import (a : Analyzer) (rs rd : Option String) (x : String) :
    importsOf (a.register_import rs rd) x =
      (match normalize_ns rs, normalize_ns rd with
       | some s, some d =>
         if s = "" ∨ d = "" ∨ s = d then importsOf a x
         else if x = s then setAdd (importsOf a x) d else importsOf a x
       | _, _ => importsOf a x) := by
  cases h1 : normalize_ns rs with
  | none => simp [Analyzer.register_import, h1]
  | some s =>
    cases h2 : normalize_ns rd with
    | none => simp [Analyzer.register_import, h1, h2]
    | some d =>
      by_cases hg : s = "" ∨ d = "" ∨ s = d
      · simp [Analyzer.register_import, h1, h2, hg]
      · simp only [Analyzer.register_import, h1, h2, if_neg hg]
        rw [show importsOf (Analyzer.register_reference _ (some s) (some d) 1) x =
            _ from importsOf_register_reference _ _ _ _ _]
        by_cases hx : x = s
        · subst hx
          simp [importsOf, alGet_update_self]
        · simp only [if_neg hx, importsOf]
          rw [alGet_update_ne _ _ _ _ (fun hsx => hx hsx.symm)]

/-- The Reference Table change made by `_register_import`. -/
theorem refWeight_register_import (a : Analyzer) (rs rd : Option String) (x y : String) :
    refWeight (a.register_import rs rd) x y =
      (match normalize_ns rs, normalize_ns rd with
       | some s, some d =>
         if s = "" ∨ d = "" ∨ s = d then refWeight a x y
         else if x = s ∧ y = d then some ((refWeight a x y).getD 0 + 1)
         else refWeight a x y
       | _, _ => refWeight a x y) := by
  cases h1 : normalize_ns rs with
  | none => simp [Analyzer.register_import, h1]
  | some s =>
    cases h2 : normalize_ns rd with
    | none => simp [Analyzer.register_import, h1, h2]
    | some d =>
      by_cases hg : s = "" ∨ d = "" ∨ s = d
      · simp [Analyzer.register_import, h1, h2, hg]
      · simp only [Analyzer.register_import, h1, h2, if_neg hg]
        have hfix1 : normalize_ns (some s) = some s := normalize_ns_fix rs s h1
        have hfix2 : normalize_ns (some d) = some d := normalize_ns_fix rd d h2
        rw [refWeight_register_reference]
        simp only [hfix1, hfix2, if_neg hg]
        rfl

/-! ## No self-loops (claim C7) -/

/-- Neither table holds a self-loop. -/
def noSelf (a : Analyzer) : Prop :=
  ∀ n : String, refWeight a n n = none ∧ n ∉ importsOf a n

theorem noSelf_register_reference (a : Analyzer) (rs rd : Option String)
    (w : Nat) (h : noSelf a) : noSelf (a.register_reference rs rd w) := by
  intro n
  constructor
  · rw [refWeight_register_reference]
    cases h1 : normalize_ns rs with
    | none => exact (h n).1
    | some s =>
      cases h2 : normalize_ns rd with
      | none => exact (h n).1
      | some d =>
        by_cases hg : s = "" ∨ d = "" ∨ s = d
        · simp only [if_pos hg]
          exact (h n).1
        · simp only [if_neg hg]
          have hsd : s ≠ d := fun hc => hg (Or.inr (Or.inr hc))
          have : ¬(n = s ∧ n = d) := fun hc => hsd (hc.1.symm.trans hc.2)
          simp only [if_neg this]
          exact (h n).1
  · rw [importsOf_register_reference]
    exact (h n).2

theorem noSelf_register_import (a : Analyzer) (rs rd : Option String)
    (h : noSelf a) : noSelf (a.register_import rs rd) := by
  intro n
  constructor
  · rw [refWeight_register_import]
    cases h1 : normalize_ns rs with
    | none => exact (h n).1
    | some s =>
      cases h2 : normalize_ns rd with
      | none => exact (h n).1
      | some d =>
        by_cases hg : s = "" ∨ d = "" ∨ s = d
        · simp only [if_pos hg]
          exact (h n).1
        · simp only [if_neg hg]
          have hsd : s ≠ d := fun hc => hg (Or.inr (Or.inr hc))
          have : ¬(n = s ∧ n = d) := fun hc => hsd (hc.1.symm.trans hc.2)
          simp only [if_neg this]
          exact (h n).1
  · rw [importsOf_register_import]
    cases h1 : normalize_ns rs with
    | none => exact (h n).2
    | some s =>
      cases h2 : normalize_ns rd with
      | none => exact (h n).2
      | some d =>
        by_cases hg : s = "" ∨ d = "" ∨ s = d
        · simp only [if_pos hg]
          exact (h n).2
        · simp only [if_neg hg]
          by_cases hn : n = s
          · simp only [if_pos hn]
            rw [setAdd_mem]
            intro hc
            rcases hc with hc | hc
            · exact (h n).2 hc
            · exact hg (Or.inr (Or.inr (hn ▸ hc ▸ rfl)))
          · simp only [if_neg hn]
            exact (h n).2

theorem noSelf_initState : noSelf Analyzer.initState := by
  intro n
  constructor
  · rfl
  · simp [importsOf, Analyzer.initState, alGet]

/-- A direct call of `_register_reference` or `_register_import`. -/
inductive RegOp : Type where
  | ref (rawSrc rawDst : Option String) (weight : Nat)
  | imp (rawSrc rawDst : Option String)

def applyRegOp (a : Analyzer) : RegOp → Analyzer
  | .ref rs rd w => a.register_reference rs rd w
  | .imp rs rd => a.register_import rs rd

theorem noSelf_applyRegOps (l : List RegOp) :
    ∀ a : Analyzer, noSelf a → noSelf (l.foldl applyRegOp a) := by
  induction l with
  | nil => intro a h; exact h
  | cons op l ih =>
    intro a h
    apply ih
    cases op with
    | ref rs rd w => exact noSelf_register_reference a rs rd w h
    | imp rs rd => exact noSelf_register_import a rs rd h

/-! ## The run invariant -/

theorem refWeight_congr {a b : Analyzer} (h : b.references = a.references)
    (x y : String) : refWeight b x y = refWeight a x y := by
  simp [refWeight, h]

theorem importsOf_congr {a b : Analyzer} (h : b.importsTable = a.importsTable)
    (x : String) : importsOf b x = importsOf a x := by
  simp [importsOf, h]

theorem nsKeys_register_reference (a : Analyzer) (rs rd : Option String)
    (w : Nat) : nsKeys (a.register_reference rs rd w) = nsKeys a := by
  unfold nsKeys
  rw [register_reference_namespaces]

theorem nsKeys_register_import (a : Analyzer) (rs rd : Option String) :
    nsKeys (a.register_import rs rd) = nsKeys a := by
  unfold nsKeys
  rw [register_import_namespaces]

/-- `_get_namespace` only returns `normalize_ns` outputs. -/
theorem get_namespace_norm (splitUri : String → Option String) (t : Term)
    (x : String) (h : get_namespace splitUri t = some x) :
    normalize_ns (some x) = some x := by
  cases t with
  | uri u =>
    simp only [get_namespace] at h
    cases hs : splitUri u with
    | some ns =>
      rw [hs] at h
      exact normalize_ns_fix _ _ h
    | none =>
      rw [hs] at h
      by_cases h1 : strContains u '#'
      · rw [if_pos h1] at h
        exact normalize_ns_fix _ _ h
      · rw [if_neg h1] at h
        by_cases h2 : strContains u '/'
        · rw [if_pos h2] at h
          exact normalize_ns_fix _ _ h
        · rw [if_neg h2] at h
          cases h
  | lit v => cases h
  | bnode v => cases h

theorem get_namespace_ne_empty (splitUri : String → Option String) (t : Term)
    (x : String) (h : get_namespace splitUri t = some x) : x ≠ "" := by
  cases t with
  | uri u =>
    simp only [get_namespace] at h
    cases hs : splitUri u with
    | some ns =>
      rw [hs] at h
      exact normalize_ns_ne_empty _ _ h
    | none =>
      rw [hs] at h
      by_cases h1 : strContains u '#'
      · rw [if_pos h1] at h
        exact normalize_ns_ne_empty _ _ h
      · rw [if_neg h1] at h
        by_cases h2 : strContains u '/'
        · rw [if_pos h2] at h
          exact normalize_ns_ne_empty _ _ h
        · rw [if_neg h2] at h
          cases h
  | lit v => cases h
  | bnode v => cases h

/-- `_ensure_ns` applied to a `_get_namespace` output stores it under
exactly that namespace string. -/
theorem ensureKey_of_norm (x : String) (hx : normalize_ns (some x) = some x) :
    ensureKey (some x) = x := by
  simp [ensureKey, hx]

/-- The structural invariant maintained by a run of the analyzer. -/
structure Inv (a : Analyzer) : Prop where
  nsNodup : (nsKeys a).Nodup
  refsNodup : (alKeys a.references).Nodup
  refSrc : ∀ p ∈ a.references, p.1 ∈ nsKeys a
  impSrc : ∀ p ∈ a.importsTable, p.1 ∈ nsKeys a
  impDst : ∀ p ∈ a.importsTable, ∀ d ∈ p.2, d ∈ nsKeys a
  impRef : ∀ src d, d ∈ importsOf a src → ∃ c, refWeight a src d = some c ∧ 1 ≤ c

theorem Inv_initState : Inv Analyzer.initState := by
  constructor <;> simp [Analyzer.initState, nsKeys, alKeys, importsOf, alGet]

theorem Inv_ensure (a : Analyzer) (raw : Option String) (h : Inv a) :
    Inv (a.ensure_ns raw) := by
  constructor
  · exact nsKeys_ensure_nodup a raw h.nsNodup
  · rw [ensure_ns_references]
    exact h.refsNodup
  · rw [ensure_ns_references]
    intro p hp
    exact nsKeys_ensure_sub a raw (h.refSrc p hp)
  · rw [ensure_ns_importsTable]
    intro p hp
    exact nsKeys_ensure_sub a raw (h.impSrc p hp)
  · rw [ensure_ns_importsTable]
    intro p hp d hd
    exact nsKeys_ensure_sub a raw (h.impDst p hp d hd)
  · intro src d hd
    rw [importsOf_congr (ensure_ns_importsTable a raw)] at hd
    rw [refWeight_congr (ensure_ns_references a raw)]
    exact h.impRef src d hd

theorem Inv_modify (a : Analyzer) (raw : Option String)
    (f : OntologyStats → OntologyStats) (h : Inv a) : Inv (a.modifyStats raw f) := by
  constructor
  · exact nsKeys_modify_nodup a raw f h.nsNodup
  · rw [modifyStats_references]
    exact h.refsNodup
  · rw [modifyStats_references]
    intro p hp
    exact nsKeys_modify_sub a raw f (h.refSrc p hp)
  · rw [modifyStats_importsTable]
    intro p hp
    exact nsKeys_modify_sub a raw f (h.impSrc p hp)
  · rw [modifyStats_importsTable]
    intro p hp d hd
    exact nsKeys_modify_sub a raw f (h.impDst p hp d hd)
  · intro src d hd
    rw [importsOf_congr (modifyStats_importsTable a raw f)] at hd
    rw [refWeight_congr (modifyStats_references a raw f)]
    exact h.impRef src d hd

theorem Inv_register_reference (a : Analyzer) (rs rd : Option String) (w : Nat)
    (h : Inv a) (hsrc : ∀ s, normalize_ns rs = some s → s ∈ nsKeys a) :
    Inv (a.register_reference rs rd w) := by
  cases h1 : normalize_ns rs with
  | none =>
    have heq : a.register_reference rs rd w = a := by
      simp [Analyzer.register_reference, h1]
    rw [heq]; exact h
  | some s =>
    cases h2 : normalize_ns rd with
    | none =>
      have heq : a.register_reference rs rd w = a := by
        simp [Analyzer.register_reference, h1, h2]
      rw [heq]; exact h
    | some d =>
      by_cases hg : s = "" ∨ d = "" ∨ s = d
      · have heq : a.register_reference rs rd w = a := by
          simp [Analyzer.register_reference, h1, h2, hg]
        rw [heq]; exact h
      · have heq : a.register_reference rs rd w =
            { a with references :=
                (alUpdate a.references s
                  (fun inner => alUpdate (inner.getD []) d (fun c => c.getD 0 + w))) } := by
          simp [Analyzer.register_reference, h1, h2, hg]
        rw [heq]
        constructor
        · exact h.nsNodup
        · exact alKeys_update_nodup _ _ _ h.refsNodup
        · apply alUpdate_forall _ _ _ (fun p => p.1 ∈ nsKeys a) h.refSrc
          intro v _
          exact hsrc s h1
        · exact h.impSrc
        · exact h.impDst
        · intro src dd hd
          obtain ⟨c, hc, hc1⟩ := h.impRef src dd hd
          show ∃ cc, (alGet (alUpdate a.references s _) src).bind (fun i => alGet i dd) = some cc ∧ 1 ≤ cc
          rw [refTable_update]
          by_cases hxy : src = s ∧ dd = d
          · rw [if_pos hxy]
            refine ⟨(refWeight a src dd).getD 0 + w, rfl, ?_⟩
            rw [hc]
            simp only [Option.getD_some]
            omega
          · rw [if_neg hxy]
            exact ⟨c, hc, hc1⟩

/-- The explicit combined state change made by a recording
`_register_import` call. -/
theorem register_import_eq (a : Analyzer) (rs rd : Option String) (s d : String)
    (h1 : normalize_ns rs = some s) (h2 : normalize_ns rd = some d)
    (hg : ¬(s = "" ∨ d = "" ∨ s = d)) :
    a.register_import rs rd =
      { a with
        importsTable := (alUpdate a.importsTable s (fun cur => setAdd (cur.getD []) d))
        references :=
          (alUpdate a.references s
            (fun inner => alUpdate (inner.getD []) d (fun c => c.getD 0 + 1))) } := by
  have hf1 : normalize_ns (some s) = some s := normalize_ns_fix rs s h1
  have hf2 : normalize_ns (some d) = some d := normalize_ns_fix rd d h2
  simp [Analyzer.register_import, Analyzer.register_reference, h1, h2, hf1, hf2, hg]

theorem Inv_register_import (a : Analyzer) (rs rd : Option String)
    (h : Inv a) (hsrc : ∀ s, normalize_ns rs = some s → s ∈ nsKeys a)
    (hdst : ∀ d, normalize_ns rd = some d → d ∈ nsKeys a) :
    Inv (a.register_import rs rd) := by
  cases h1 : normalize_ns rs with
  | none =>
    have heq : a.register_import rs rd = a := by
      simp [Analyzer.register_import, h1]
    rw [heq]; exact h
  | some s =>
    cases h2 : normalize_ns rd with
    | none =>
      have heq : a.register_import rs rd = a := by
        simp [Analyzer.register_import, h1, h2]
      rw [heq]; exact h
    | some d =>
      by_cases hg : s = "" ∨ d = "" ∨ s = d
      · have heq : a.register_import rs rd = a := by
          simp [Analyzer.register_import, h1, h2, hg]
        rw [heq]; exact h
      · rw [register_import_eq a rs rd s d h1 h2 hg]
        constructor
        · exact h.nsNodup
        · exact alKeys_update_nodup _ _ _ h.refsNodup
        · apply alUpdate_forall _ _ _ (fun p => p.1 ∈ nsKeys a) h.refSrc
          intro v _
          exact hsrc s h1
        · apply alUpdate_forall _ _ _ (fun p => p.1 ∈ nsKeys a) h.impSrc
          intro v _
          exact hsrc s h1
        · apply alUpdate_forall _ _ _ (fun p => ∀ dd ∈ p.2, dd ∈ nsKeys a) h.impDst
          intro v hv dd hdd
          cases v with
          | none =>
            simp only [Option.getD_none] at hdd
            rcases (setAdd_mem [] d dd).mp hdd with hin | hin
            · cases hin
            · rw [hin]; exact hdst d h2
          | some e =>
            simp only [Option.getD_some] at hdd
            rcases (setAdd_mem e d dd).mp hdd with hin | hin
            · exact hv e rfl dd hin
            · rw [hin]; exact hdst d h2
        · intro src dd hd
          have himp : importsOf { a with
              importsTable := (alUpdate a.importsTable s (fun cur => setAdd (cur.getD []) d))
              references :=
                (alUpdate a.references s
                  (fun inner => alUpdate (inner.getD []) d (fun c => c.getD 0 + 1))) } src =
              (if src = s then setAdd (importsOf a src) d else importsOf a src) := by
            by_cases hx : src = s
            · subst hx
              simp [importsOf, alGet_update_self]
            · simp only [if_neg hx, importsOf]
              rw [alGet_update_ne _ _ _ _ (fun hsx => hx hsx.symm)]
          rw [himp] at hd
          show ∃ cc, (alGet (alUpdate a.references s _) src).bind (fun i => alGet i dd) = some cc ∧ 1 ≤ cc
          rw [refTable_update]
          by_cases hxy : src = s ∧ dd = d
          · rw [if_pos hxy]
            exact ⟨(refWeight a src dd).getD 0 + 1, rfl, by omega⟩
          · rw [if_neg hxy]
            by_cases hx : src = s
            · rw [if_pos hx] at hd
              rcases (setAdd_mem _ _ _).mp hd with hin | hin
              · exact h.impRef src dd hin
              · exact absurd ⟨hx, hin⟩ hxy
            · rw [if_neg hx] at hd
              exact h.impRef src dd hd

/-- Generic preservation of a predicate by a fold. -/
theorem foldl_pres {α β : Type} (P : β → Prop) (f : β → α → β)
    (h : ∀ b x, P b → P (f b x)) :
    ∀ (l : List α) (b : β), P b → P (List.foldl f b l) := by
  intro l
  induction l with
  | nil => intro b hb; exact hb
  | cons a l ih =>
    intro b hb
    exact ih (f b a) (h b a hb)

theorem Inv_condreg (a : Analyzer) (c : Prop) [Decidable c]
    (rs rd : Option String) (w : Nat) (h : Inv a)
    (hsrc : ∀ s, normalize_ns rs = some s → s ∈ nsKeys a) :
    Inv (if c then a.register_reference rs rd w else a) := by
  split
  · exact Inv_register_reference a rs rd w h hsrc
  · exact h

theorem nsKeys_condreg (a : Analyzer) (c : Prop) [Decidable c]
    (rs rd : Option String) (w : Nat) :
    nsKeys (if c then a.register_reference rs rd w else a) = nsKeys a := by
  split
  · exact nsKeys_register_reference a rs rd w
  · rfl

/-- The raw subject namespace used by `_process_dependencies_for_triple`. -/
def subjNs (splitUri : String → Option String) (s : Term) : Option String :=
  if termIsUri s then get_namespace splitUri s else none

theorem subjNs_norm (splitUri : String → Option String) (s : Term) (x : String)
    (h : subjNs splitUri s = some x) : normalize_ns (some x) = some x := by
  unfold subjNs at h
  by_cases hu : termIsUri s
  · rw [if_pos hu] at h
    exact get_namespace_norm splitUri s x h
  · rw [if_neg hu] at h
    cases h

theorem Inv_deps (splitUri : String → Option String) (a : Analyzer) (s p o : Term)
    (h : Inv a)
    (hs : ∀ sv, subjNs splitUri s = some sv → sv ∈ nsKeys a) :
    Inv (process_dependencies_for_triple splitUri a s p o) := by
  have hnorm : ∀ b : Analyzer, nsKeys b = nsKeys a →
      ∀ sv, normalize_ns (subjNs splitUri s) = some sv → sv ∈ nsKeys b := by
    intro b hb sv hsv
    cases hy : subjNs splitUri s with
    | none => rw [hy] at hsv; cases hsv
    | some x =>
      rw [hy, subjNs_norm splitUri s x hy] at hsv
      injection hsv with hxy
      rw [hb, ← hxy]
      exact hs x hy
  have h1 : Inv (if truthy (subjNs splitUri s) ∧
      truthy (if termIsUri p then get_namespace splitUri p else none) ∧
      subjNs splitUri s ≠ (if termIsUri p then get_namespace splitUri p else none)
      then a.register_reference (subjNs splitUri s)
        (if termIsUri p then get_namespace splitUri p else none) 1 else a) :=
    Inv_condreg a _ _ _ 1 h (hnorm a rfl)
  have k1 : nsKeys (if truthy (subjNs splitUri s) ∧
      truthy (if termIsUri p then get_namespace splitUri p else none) ∧
      subjNs splitUri s ≠ (if termIsUri p then get_namespace splitUri p else none)
      then a.register_reference (subjNs splitUri s)
        (if termIsUri p then get_namespace splitUri p else none) 1 else a) = nsKeys a :=
    nsKeys_condreg a _ _ _ 1
  have h2 : Inv (if p = RDF_type ∧ truthy (subjNs splitUri s) ∧
      truthy (if termIsUri o then get_namespace splitUri o else none) ∧
      subjNs splitUri s ≠ (if termIsUri o then get_namespace splitUri o else none)
      then (if truthy (subjNs splitUri s) ∧
        truthy (if termIsUri p then get_namespace splitUri p else none) ∧
        subjNs splitUri s ≠ (if termIsUri p then get_namespace splitUri p else none)
        then a.register_reference (subjNs splitUri s)
          (if termIsUri p then get_namespace splitUri p else none) 1 else a).register_reference
          (subjNs splitUri s) (if termIsUri o then get_namespace splitUri o else none) 1
      else (if truthy (subjNs splitUri s) ∧
        truthy (if termIsUri p then get_namespace splitUri p else none) ∧
        subjNs splitUri s ≠ (if termIsUri p then get_namespace splitUri p else none)
        then a.register_reference (subjNs splitUri s)
          (if termIsUri p then get_namespace splitUri p else none) 1 else a)) :=
    Inv_condreg _ _ _ _ 1 h1 (hnorm _ k1)
  have k2 : nsKeys (if p = RDF_type ∧ truthy (subjNs splitUri s) ∧
      truthy (if termIsUri o then get_namespace splitUri o else none) ∧
      subjNs splitUri s ≠ (if termIsUri o then get_namespace splitUri o else none)
      then (if truthy (subjNs splitUri s) ∧
        truthy (if termIsUri p then get_namespace splitUri p else none) ∧
        subjNs splitUri s ≠ (if termIsUri p then get_namespace splitUri p else none)
        then a.register_reference (subjNs splitUri s)
          (if termIsUri p then get_namespace splitUri p else none) 1 else a).register_reference
          (subjNs splitUri s) (if termIsUri o then get_namespace splitUri o else none) 1
      else (if truthy (subjNs splitUri s) ∧
        truthy (if termIsUri p then get_namespace splitUri p else none) ∧
        subjNs splitUri s ≠ (if termIsUri p then get_namespace splitUri p else none)
        then a.register_reference (subjNs splitUri s)
          (if termIsUri p then get_namespace splitUri p else none) 1 else a)) = nsKeys a := by
    rw [nsKeys_condreg, k1]
  exact Inv_condreg _ _ _ _ 1 h2 (hnorm _ k2)

theorem nsKeys_deps (splitUri : String → Option String) (a : Analyzer) (s p o : Term) :
    nsKeys (process_dependencies_for_triple splitUri a s p o) = nsKeys a := by
  show nsKeys (if _ then Analyzer.register_reference _ _ _ 1 else _) = nsKeys a
  rw [nsKeys_condreg, nsKeys_condreg, nsKeys_condreg]

/-- The shape of the two statistics-updating blocks of the triple loop. -/
def condMod (b : Analyzer) (c : Prop) [Decidable c] (gn : Option String)
    (f : OntologyStats → OntologyStats) : Analyzer :=
  if c then
    (match gn with
     | some sns => if sns = "" then b else b.modifyStats (some sns) f
     | none => b)
  else b

theorem Inv_condMod (b : Analyzer) (c : Prop) [Decidable c] (gn : Option String)
    (f : OntologyStats → OntologyStats) (h : Inv b) : Inv (condMod b c gn f) := by
  unfold condMod
  split
  · cases gn with
    | none => exact h
    | some sns =>
      show Inv (if sns = "" then b else b.modifyStats (some sns) f)
      by_cases hemp : sns = ""
      · rw [if_pos hemp]; exact h
      · rw [if_neg hemp]; exact Inv_modify b (some sns) f h
  · exact h

theorem nsKeys_condMod_sub (b : Analyzer) (c : Prop) [Decidable c]
    (gn : Option String) (f : OntologyStats → OntologyStats) :
    nsKeys b ⊆ nsKeys (condMod b c gn f) := by
  unfold condMod
  split
  · cases gn with
    | none => exact fun x h => h
    | some sns =>
      show nsKeys b ⊆ nsKeys (if sns = "" then b else b.modifyStats (some sns) f)
      by_cases hemp : sns = ""
      · rw [if_pos hemp]; exact fun x h => h
      · rw [if_neg hemp]; exact nsKeys_modify_sub b (some sns) f
  · exact fun x h => h

theorem mem_condMod (b : Analyzer) (c : Prop) [Decidable c] (gn : Option String)
    (f : OntologyStats → OntologyStats) (hc : c) (x : String) (hx : gn = some x)
    (hne : x ≠ "") (hfix : normalize_ns (some x) = some x) :
    x ∈ nsKeys (condMod b c gn f) := by
  unfold condMod
  rw [if_pos hc, hx]
  simp only [if_neg hne]
  have := nsKeys_modify_mem b (some x) f
  rwa [ensureKey_of_norm x hfix] at this

theorem Inv_processTriple (splitUri : String → Option String) (file : String)
    (a : Analyzer) (t : Triple) (h : Inv a) :
    Inv (processTriple splitUri file a t) := by
  have h1 : Inv (condMod a (termIsUri t.1) (get_namespace splitUri t.1)
      (fun st => { st with files := setAdd st.files file, triples := st.triples + 1 })) :=
    Inv_condMod _ _ _ _ h
  have h2 : Inv (condMod
      (condMod a (termIsUri t.1) (get_namespace splitUri t.1)
        (fun st => { st with files := setAdd st.files file, triples := st.triples + 1 }))
      (t.2.1 = RDF_type ∧ termIsUri t.1 ∧ termIsUri t.2.2)
      (get_namespace splitUri t.1) (classifyObject t.2.2)) :=
    Inv_condMod _ _ _ _ h1
  have hs : ∀ sv, subjNs splitUri t.1 = some sv →
      sv ∈ nsKeys (condMod
        (condMod a (termIsUri t.1) (get_namespace splitUri t.1)
          (fun st => { st with files := setAdd st.files file, triples := st.triples + 1 }))
        (t.2.1 = RDF_type ∧ termIsUri t.1 ∧ termIsUri t.2.2)
        (get_namespace splitUri t.1) (classifyObject t.2.2)) := by
    intro sv hsv
    unfold subjNs at hsv
    by_cases hu : termIsUri t.1
    · rw [if_pos hu] at hsv
      have hne := get_namespace_ne_empty _ _ _ hsv
      have hfix := get_namespace_norm _ _ _ hsv
      apply nsKeys_condMod_sub
      exact mem_condMod _ _ _ _ hu sv hsv hne hfix
    · rw [if_neg hu] at hsv
      cases hsv
  exact Inv_deps splitUri _ t.1 t.2.1 t.2.2 h2 hs

theorem nsKeys_processTriple_sub (splitUri : String → Option String) (file : String)
    (a : Analyzer) (t : Triple) :
    nsKeys a ⊆ nsKeys (processTriple splitUri file a t) := by
  intro x hx
  show x ∈ nsKeys (process_dependencies_for_triple splitUri
    (condMod (condMod a (termIsUri t.1) (get_namespace splitUri t.1)
        (fun st => { st with files := setAdd st.files file, triples := st.triples + 1 }))
      (t.2.1 = RDF_type ∧ termIsUri t.1 ∧ termIsUri t.2.2)
      (get_namespace splitUri t.1) (classifyObject t.2.2)) t.1 t.2.1 t.2.2)
  rw [nsKeys_deps]
  apply nsKeys_condMod_sub
  apply nsKeys_condMod_sub
  exact hx

theorem foldl_nsKeys_sub {α : Type} (f : Analyzer → α → Analyzer)
    (h : ∀ b x, nsKeys b ⊆ nsKeys (f b x)) :
    ∀ (l : List α) (a : Analyzer), nsKeys a ⊆ nsKeys (List.foldl f a l) := by
  intro l a
  exact foldl_pres (fun b => nsKeys a ⊆ nsKeys b) f
    (fun b x hb => fun y hy => h b x (hb hy)) l a (fun y hy => hy)

theorem nsKeys_ontoImportStep_sub (splitUri : String → Option String)
    (onto_ns : Option String) (b : Analyzer) (imported : Term) :
    nsKeys b ⊆ nsKeys (ontoImportStep splitUri onto_ns b imported) := by
  unfold ontoImportStep
  split
  · intro x hx
    rw [nsKeys_register_import]
    exact nsKeys_ensure_sub _ _ hx
  · exact fun x hx => hx

theorem Inv_ontoImportStep (splitUri : String → Option String)
    (onto_ns : Option String) (b : Analyzer) (imported : Term)
    (h : Inv b) (hsrc : ∀ s', normalize_ns onto_ns = some s' → s' ∈ nsKeys b) :
    Inv (ontoImportStep splitUri onto_ns b imported) := by
  unfold ontoImportStep
  split
  · apply Inv_register_import _ _ _ (Inv_ensure _ _ h)
    · intro s' hs'
      exact nsKeys_ensure_sub _ _ (hsrc s' hs')
    · intro d' hd'
      cases hy : get_namespace splitUri imported with
      | none => rw [hy] at hd'; cases hd'
      | some x =>
        rw [hy] at hd'
        rw [get_namespace_norm splitUri imported x hy] at hd'
        injection hd' with hxd
        have := nsKeys_ensure_mem b (get_namespace splitUri imported)
        rw [hy, ensureKey_of_norm x (get_namespace_norm splitUri imported x hy)] at this
        rw [← hxd]
        exact this
  · exact h

theorem nsKeys_ontoStep_sub (splitUri : String → Option String) (filePath : String)
    (g : List Triple) (b : Analyzer) (onto : Term) :
    nsKeys b ⊆ nsKeys (ontoStep splitUri filePath g b onto) := by
  unfold ontoStep
  split
  · intro x hx
    apply foldl_nsKeys_sub (ontoImportStep splitUri (get_namespace splitUri onto))
      (nsKeys_ontoImportStep_sub splitUri (get_namespace splitUri onto))
    exact nsKeys_modify_sub _ _ _ hx
  · exact fun x hx => hx

theorem Inv_ontoStep (splitUri : String → Option String) (filePath : String)
    (g : List Triple) (b : Analyzer) (onto : Term) (h : Inv b) :
    Inv (ontoStep splitUri filePath g b onto) := by
  unfold ontoStep
  split
  · have hP : Inv (b.modifyStats (get_namespace splitUri onto)
        (fun st => { st with files := setAdd st.files filePath })) ∧
        (∀ s', normalize_ns (get_namespace splitUri onto) = some s' →
          s' ∈ nsKeys (b.modifyStats (get_namespace splitUri onto)
            (fun st => { st with files := setAdd st.files filePath }))) := by
      refine ⟨Inv_modify _ _ _ h, ?_⟩
      intro s' hs'
      cases hy : get_namespace splitUri onto with
      | none => rw [hy] at hs'; cases hs'
      | some x =>
        rw [hy, get_namespace_norm splitUri onto x hy] at hs'
        injection hs' with hxs
        have := nsKeys_modify_mem b (get_namespace splitUri onto)
          (fun st => { st with files := setAdd st.files filePath })
        rw [hy, ensureKey_of_norm x (get_namespace_norm splitUri onto x hy)] at this
        rw [← hxs]
        exact this
    have := foldl_pres (fun c => Inv c ∧
        (∀ s', normalize_ns (get_namespace splitUri onto) = some s' → s' ∈ nsKeys c))
      (ontoImportStep splitUri (get_namespace splitUri onto))
      (fun c imp hc => ⟨Inv_ontoImportStep splitUri _ c imp hc.1 hc.2,
        fun s' hs' => nsKeys_ontoImportStep_sub splitUri _ c imp (hc.2 s' hs')⟩)
      (objectsOf g onto OWL_imports) _ hP
    exact this.1
  · exact h

theorem Inv_process_rdf_graph (splitUri : String → Option String)
    (filePath : String) (g : List Triple) (a : Analyzer) (h : Inv a) :
    Inv (process_rdf_graph splitUri filePath g a) := by
  unfold process_rdf_graph
  apply foldl_pres Inv (ontoStep splitUri filePath g)
    (fun b onto hb => Inv_ontoStep splitUri filePath g b onto hb)
  exact foldl_pres Inv (processTriple splitUri filePath)
    (fun b t hb => Inv_processTriple splitUri filePath b t hb) g a h

theorem nsKeys_process_rdf_graph_sub (splitUri : String → Option String)
    (filePath : String) (g : List Triple) (a : Analyzer) :
    nsKeys a ⊆ nsKeys (process_rdf_graph splitUri filePath g a) := by
  unfold process_rdf_graph
  intro x hx
  apply foldl_nsKeys_sub (ontoStep splitUri filePath g)
    (nsKeys_ontoStep_sub splitUri filePath g)
  exact foldl_nsKeys_sub (processTriple splitUri filePath)
    (nsKeys_processTriple_sub splitUri filePath) g a hx

theorem nsKeys_xsdImportStep_sub (tns : String) (b : Analyzer) (nsRaw : Option String) :
    nsKeys b ⊆ nsKeys (xsdImportStep tns b nsRaw) := by
  unfold xsdImportStep
  cases normalize_ns nsRaw with
  | none => exact fun x hx => hx
  | some ns =>
    by_cases hemp : ns = ""
    · simp only [if_pos hemp]
      exact fun x hx => hx
    · simp only [if_neg hemp]
      intro x hx
      rw [nsKeys_register_import]
      exact nsKeys_ensure_sub _ _ hx

theorem Inv_xsdImportStep (tns : String) (b : Analyzer) (nsRaw : Option String)
    (h : Inv b) (hsrc : ∀ s', normalize_ns (some tns) = some s' → s' ∈ nsKeys b) :
    Inv (xsdImportStep tns b nsRaw) := by
  unfold xsdImportStep
  cases hn : normalize_ns nsRaw with
  | none => exact h
  | some ns =>
    by_cases hemp : ns = ""
    · simp only [if_pos hemp]
      exact h
    · simp only [if_neg hemp]
      apply Inv_register_import _ _ _ (Inv_ensure _ _ h)
      · intro s' hs'
        exact nsKeys_ensure_sub _ _ (hsrc s' hs')
      · intro d' hd'
        have hfix : normalize_ns (some ns) = some ns := normalize_ns_fix nsRaw ns hn
        rw [hfix] at hd'
        injection hd' with hnd
        have := nsKeys_ensure_mem b (some ns)
        rw [ensureKey_of_norm ns hfix] at this
        rw [← hnd]
        exact this

theorem Inv_process_xsd (filePath fileName : String) (targetNs : Option String)
    (importNss : List (Option String)) (a : Analyzer) (h : Inv a) :
    Inv (process_xsd filePath fileName targetNs importNss a) := by
  unfold process_xsd
  have hP : Inv (a.modifyStats (some ((normalize_ns targetNs).getD ("file://" ++ fileName)))
      (fun st => { st with files := setAdd st.files filePath })) ∧
      (∀ s', normalize_ns (some ((normalize_ns targetNs).getD ("file://" ++ fileName))) = some s' →
        s' ∈ nsKeys (a.modifyStats (some ((normalize_ns targetNs).getD ("file://" ++ fileName)))
          (fun st => { st with files := setAdd st.files filePath }))) := by
    refine ⟨Inv_modify _ _ _ h, ?_⟩
    intro s' hs'
    have := nsKeys_modify_mem a (some ((normalize_ns targetNs).getD ("file://" ++ fileName)))
      (fun st => { st with files := setAdd st.files filePath })
    have hkey : ensureKey (some ((normalize_ns targetNs).getD ("file://" ++ fileName))) = s' := by
      simp [ensureKey, hs']
    rw [hkey] at this
    exact this
  have := foldl_pres (fun c => Inv c ∧
      (∀ s', normalize_ns (some ((normalize_ns targetNs).getD ("file://" ++ fileName))) = some s' →
        s' ∈ nsKeys c))
    (xsdImportStep ((normalize_ns targetNs).getD ("file://" ++ fileName)))
    (fun c nsRaw hc => ⟨Inv_xsdImportStep _ c nsRaw hc.1 hc.2,
      fun s' hs' => nsKeys_xsdImportStep_sub _ c nsRaw (hc.2 s' hs')⟩)
    importNss _ hP
  exact this.1

theorem nsKeys_process_xsd_sub (filePath fileName : String) (targetNs : Option String)
    (importNss : List (Option String)) (a : Analyzer) :
    nsKeys a ⊆ nsKeys (process_xsd filePath fileName targetNs importNss a) := by
  unfold process_xsd
  intro x hx
  apply foldl_nsKeys_sub (xsdImportStep _) (nsKeys_xsdImportStep_sub _)
  exact nsKeys_modify_sub _ _ _ hx

theorem Inv_runOp (splitUri : String → Option String) (a : Analyzer)
    (op : AnalyzerOp) (h : Inv a) : Inv (runOp splitUri a op) := by
  cases op with
  | rdfGraph f g => exact Inv_process_rdf_graph splitUri f g a h
  | xsd fp fn tns imps => exact Inv_process_xsd fp fn tns imps a h

theorem nsKeys_runOp_sub (splitUri : String → Option String) (a : Analyzer)
    (op : AnalyzerOp) : nsKeys a ⊆ nsKeys (runOp splitUri a op) := by
  cases op with
  | rdfGraph f g => exact nsKeys_process_rdf_graph_sub splitUri f g a
  | xsd fp fn tns imps => exact nsKeys_process_xsd_sub fp fn tns imps a

/-- A full analyzer accumulation run maintains the structural invariant. -/
theorem Inv_runOps (splitUri : String → Option String) (ops : List AnalyzerOp) :
    Inv (runOps splitUri ops) :=
  foldl_pres Inv (runOp splitUri) (Inv_runOp splitUri) ops Analyzer.initState Inv_initState

/-! ## Facts about `attach_descriptions_from_graph` -/

theorem alKeys_update_sub {κ α : Type} [DecidableEq κ] (l : List (κ × α))
    (k : κ) (f : Option α → α) : alKeys l ⊆ alKeys (alUpdate l k f) := by
  rw [alKeys_update]
  split
  · exact fun x h => h
  · exact fun x h => List.mem_append_left _ h

theorem Inv_updNs (a : Analyzer) (key : String)
    (f : Option OntologyStats → OntologyStats) (h : Inv a) :
    Inv { a with namespaces := alUpdate a.namespaces key f } := by
  constructor
  · exact alKeys_update_nodup _ _ _ h.nsNodup
  · exact h.refsNodup
  · intro p hp
    exact alKeys_update_sub _ _ _ (h.refSrc p hp)
  · intro p hp
    exact alKeys_update_sub _ _ _ (h.impSrc p hp)
  · intro p hp d hd
    exact alKeys_update_sub _ _ _ (h.impDst p hp d hd)
  · exact h.impRef

theorem attachStep_references (splitUri : String → Option String) (g : List Triple)
    (b : Analyzer) (onto : Term) :
    (attachStep splitUri g b onto).references = b.references := by
  unfold attachStep
  split
  · dsimp only
    split <;> split <;> simp [ensure_ns_references]
  · rfl

theorem attachStep_importsTable (splitUri : String → Option String) (g : List Triple)
    (b : Analyzer) (onto : Term) :
    (attachStep splitUri g b onto).importsTable = b.importsTable := by
  unfold attachStep
  split
  · dsimp only
    split <;> split <;> simp [ensure_ns_importsTable]
  · rfl

theorem nsKeys_attachStep_sub (splitUri : String → Option String) (g : List Triple)
    (b : Analyzer) (onto : Term) :
    nsKeys b ⊆ nsKeys (attachStep splitUri g b onto) := by
  unfold attachStep
  split
  · dsimp only
    split <;> split <;>
      (intro x hx
       first
       | exact nsKeys_ensure_sub _ _ hx
       | exact alKeys_update_sub _ _ _ (nsKeys_ensure_sub _ _ hx)
       | exact alKeys_update_sub _ _ _ (alKeys_update_sub _ _ _ (nsKeys_ensure_sub _ _ hx)))
  · exact fun x hx => hx

theorem Inv_attachStep (splitUri : String → Option String) (g : List Triple)
    (b : Analyzer) (onto : Term) (h : Inv b) :
    Inv (attachStep splitUri g b onto) := by
  unfold attachStep
  split
  · dsimp only
    split <;> split <;>
      first
      | exact Inv_ensure _ _ h
      | exact Inv_updNs _ _ _ (Inv_ensure _ _ h)
      | exact Inv_updNs _ _ _ (Inv_updNs _ _ _ (Inv_ensure _ _ h))
  · exact h

theorem attach_references (splitUri : String → Option String) (g : List Triple)
    (a : Analyzer) :
    (attach_descriptions_from_graph splitUri g a).references = a.references := by
  unfold attach_descriptions_from_graph
  exact foldl_pres (fun b => b.references = a.references) (attachStep splitUri g)
    (fun b onto hb => (attachStep_references splitUri g b onto).trans hb)
    _ a rfl

theorem attach_importsTable (splitUri : String → Option String) (g : List Triple)
    (a : Analyzer) :
    (attach_descriptions_from_graph splitUri g a).importsTable = a.importsTable := by
  unfold attach_descriptions_from_graph
  exact foldl_pres (fun b => b.importsTable = a.importsTable) (attachStep splitUri g)
    (fun b onto hb => (attachStep_importsTable splitUri g b onto).trans hb)
    _ a rfl

theorem nsKeys_attach_sub (splitUri : String → Option String) (g : List Triple)
    (a : Analyzer) :
    nsKeys a ⊆ nsKeys (attach_descriptions_from_graph splitUri g a) := by
  unfold attach_descriptions_from_graph
  exact foldl_nsKeys_sub (attachStep splitUri g) (nsKeys_attachStep_sub splitUri g) _ a

theorem Inv_attach (splitUri : String → Option String) (g : List Triple)
    (a : Analyzer) (h : Inv a) :
    Inv (attach_descriptions_from_graph splitUri g a) := by
  unfold attach_descriptions_from_graph
  exact foldl_pres Inv (attachStep splitUri g)
    (fun b onto hb => Inv_attachStep splitUri g b onto hb) _ a h

/-! ## Concrete run fixtures used by witnesses and counterexamples -/

/-- A `split_uri` model in which the library call always raises, so
`_get_namespace` uses its `#`/`/` fallback splits. -/
def noSplit : String → Option String := fun _ => none

/-- A triple whose predicate lives in a foreign namespace that is never
given a Statistics entry. -/
def cexTripleA : Triple :=
  (Term.uri "http://a.org/x#s", Term.uri "http://b.org/y#p", Term.lit "z")

def cexRunA : Analyzer := runOps noSplit [AnalyzerOp.rdfGraph "f" [cexTripleA]]

def cexDocA : ResultDoc := build_result_document noSplit [] cexRunA []

/-- Two subjects in namespaces sharing the final path segment `core`. -/
def cexTripleC1 : Triple :=
  (Term.uri "http://a.org/core#A", Term.uri "http://a.org/core#p", Term.lit "x")

def cexTripleC2 : Triple :=
  (Term.uri "http://b.org/core#B", Term.uri "http://b.org/core#p", Term.lit "x")

def cexRunC : Analyzer :=
  runOps noSplit [AnalyzerOp.rdfGraph "f" [cexTripleC1, cexTripleC2]]

/-- A two-ontology corpus where `http://a.org/onto` imports
`http://b.org/onto`. -/
def impTriple1 : Triple := (Term.uri "http://a.org/onto", RDF_type, OWL_Ontology)

def impTriple2 : Triple :=
  (Term.uri "http://a.org/onto", OWL_imports, Term.uri "http://b.org/onto")

def impOps : List AnalyzerOp := [AnalyzerOp.rdfGraph "f" [impTriple1, impTriple2]]

def impRun : Analyzer := runOps noSplit impOps

def impDoc : ResultDoc := build_result_document noSplit [] impRun []

/-- A namespace table whose sorted keys derive one ordinary id (`!x`)
before one fallback id (`#`). -/
def fbState : Analyzer := ⟨[("!x", emptyStats "!x"), ("#", emptyStats "#")], [], []⟩

/-! ## Claim C7 -/

/-- C7: for every namespace N and after any sequence of
`_register_reference` and `_register_import` calls on a fresh analyzer,
the Reference Table contains no entry from N to N and the Import Table
never holds N in its own destination set. -/
theorem C7_no_self_loops (calls : List RegOp) (n : String) :
    refWeight (calls.foldl applyRegOp Analyzer.initState) n n = none ∧
    n ∉ importsOf (calls.foldl applyRegOp Analyzer.initState) n :=
  noSelf_applyRegOps calls Analyzer.initState noSelf_initState n

/-! ## Claim C8 -/

/-- C8: `normalize_ns` is idempotent, and on strings consisting only of
`'/'` and `'#'` characters (including the empty string) it returns the
absent value `none`, never the empty string. -/
theorem C8_normalize_idempotent_empty_absent :
    (∀ s : String, normalize_ns (normalize_ns (some s)) = normalize_ns (some s)) ∧
    (∀ s : String, (∀ c ∈ s.data, c = '/' ∨ c = '#') → normalize_ns (some s) = none) := by
  constructor
  · intro s
    exact normalize_ns_idem (some s)
  · intro s h
    simp [normalize_ns, rstripSH_eq_empty s h]

theorem C8_witness :
    normalize_ns (normalize_ns (some "http://a.org/")) = normalize_ns (some "http://a.org/") ∧
    normalize_ns (some "/#/#") = none :=
  ⟨C8_normalize_idempotent_empty_absent.1 "http://a.org/",
   C8_normalize_idempotent_empty_absent.2 "/#/#" (by decide)⟩

/-! ## Claim C10 -/

theorem strStartsWith_dash (p : String) (h : strStartsWith p "-" = true) :
    ∃ rest, p.data = '-' :: rest := by
  unfold strStartsWith at h
  cases hd : p.data with
  | nil =>
    rw [hd] at h
    simp [List.isPrefixOf] at h
  | cons c cs =>
    rw [hd] at h
    have : ('-' == c) = true := by
      by_contra hc
      simp only [show ("-" : String).data = ['-'] from rfl, List.isPrefixOf,
        List.isPrefixOf_nil_left] at h
      rw [Bool.not_eq_true] at hc
      rw [hc] at h
      simp at h
    have hc : c = '-' := (beq_iff_eq.mp this).symm
    exact ⟨cs, by rw [hc]⟩

theorem dash_ne_star (p : String) (h : strStartsWith p "-" = true) : p ≠ "*" := by
  obtain ⟨rest, hd⟩ := strStartsWith_dash p h
  intro he
  rw [he] at hd
  have hcons : ('*' : Char) :: [] = '-' :: rest := hd
  injection hcons with h1 _
  exact absurd h1 (by decide)

theorem dash_not_plus (p : String) (h : strStartsWith p "-" = true) :
    strStartsWith p "+" = false := by
  obtain ⟨rest, hd⟩ := strStartsWith_dash p h
  unfold strStartsWith
  rw [hd]
  simp [show ("+" : String).data = ['+'] from rfl, List.isPrefixOf]

theorem classify_all_dash (ps : List String)
    (h : ∀ p ∈ ps, strStartsWith p "-" = true) :
    ∀ inc exc : List String, ∀ st : Bool,
      ps.foldl classifyPattern (inc, exc, st) = (inc, exc ++ ps.map dropFirst, st) := by
  induction ps with
  | nil => intro inc exc st; simp
  | cons p ps ih =>
    intro inc exc st
    have hp : strStartsWith p "-" = true := h p (by simp)
    have hrest : ∀ q ∈ ps, strStartsWith q "-" = true := fun q hq => h q (by simp [hq])
    simp only [List.foldl_cons, List.map_cons]
    have hstep : classifyPattern (inc, exc, st) p = (inc, exc ++ [dropFirst p], st) := by
      unfold classifyPattern
      rw [if_neg (dash_ne_star p hp)]
      rw [dash_not_plus p hp]
      simp [hp]
    rw [hstep, ih hrest]
    simp

/-- C10: with a pattern list made only of `-token` entries, the keyword
filter accepts a record exactly when none of the excluded tokens occurs
in its keyword set (the must-include requirement is vacuous). -/
theorem C10_exclusion_only (patterns : List String) (meta : MetaRecord)
    (h : ∀ p ∈ patterns, strStartsWith p "-" = true) :
    matches_keywords meta patterns = true ↔
      ∀ p ∈ patterns, dropFirst p ∉ meta.keywords := by
  by_cases hp : patterns = []
  · subst hp
    simp [matches_keywords]
  · unfold matches_keywords
    rw [if_neg hp]
    rw [classify_all_dash patterns h [] [] false]
    simp only [Bool.false_eq_true, if_false, List.all_nil, Bool.true_and,
      List.nil_append, Bool.not_eq_true']
    rw [List.any_eq_false]
    simp only [decide_eq_true_eq]
    constructor
    · intro hk p hpp hmem
      exact hk (dropFirst p) hmem (List.mem_map.mpr ⟨p, hpp, rfl⟩)
    · intro hk k hkmem hmap
      obtain ⟨p, hpp, hpe⟩ := List.mem_map.mp hmap
      exact hk p hpp (hpe ▸ hkmem)

theorem C10_witness : matches_keywords ⟨["x"]⟩ ["-dep"] = true :=
  (C10_exclusion_only ["-dep"] ⟨["x"]⟩ (by decide)).mpr (by decide)

/-! ## Claim C4 -/

theorem alGet_update_isSome_pres {κ α : Type} [DecidableEq κ]
    (l : List (κ × α)) (k j : κ) (f : Option α → α)
    (h : (alGet l j).isSome) : (alGet (alUpdate l k f) j).isSome := by
  by_cases hk : k = j
  · subst hk
    rw [alGet_update_self]
    rfl
  · rw [alGet_update_ne _ _ _ _ hk]
    exact h

theorem fallbackPhase_isSome_pres (nsList : List String)
    (start : List (String × String) × Nat) (ns : String)
    (h : (alGet start.1 ns).isSome) :
    (alGet (fallbackPhase start nsList).1 ns).isSome := by
  unfold fallbackPhase
  apply foldl_pres (fun mc => (alGet mc.1 ns).isSome) _ _ nsList start h
  intro mc x hmc
  dsimp only
  split
  · exact alGet_update_isSome_pres _ _ _ _ hmc
  · exact hmc

theorem fallbackPhase_mem_isSome (nsList : List String) :
    ∀ (start : List (String × String) × Nat) (ns : String), ns ∈ nsList →
      (alGet (fallbackPhase start nsList).1 ns).isSome := by
  induction nsList with
  | nil => intro start ns h; cases h
  | cons x rest ih =>
    intro start ns h
    have hstep : fallbackPhase start (x :: rest) =
        fallbackPhase (if alGet start.1 x = none
          then (alUpdate start.1 x (fun _ => make_short_id x start.2), start.2 + 1)
          else start) rest := by
      unfold fallbackPhase
      rw [List.foldl_cons]
    rcases List.mem_cons.mp h with hx | hx
    · subst hx
      rw [hstep]
      apply fallbackPhase_isSome_pres
      split
      · next hnone =>
        rw [show (alUpdate start.1 ns (fun _ => make_short_id ns start.2), start.2 + 1).1 =
          alUpdate start.1 ns (fun _ => make_short_id ns start.2) from rfl]
        rw [alGet_update_self]
        rfl
      · next hsome =>
        cases hv : alGet start.1 ns with
        | none => exact absurd hv hsome
        | some v => rfl
    · rw [hstep]
      exact ih _ ns hx

/-- C4 (amended): the ID map built by `_build_id_map` is total — every
namespace with a Statistics entry is assigned an identifier — but the
identifiers are not collision-free: distinct namespaces whose derived
short ids coincide receive the same identifier. -/
theorem C4_id_map_total (a : Analyzer) (prefixes : List (String × String))
    (ns : String) (h : ns ∈ nsKeys a) :
    (alGet (build_id_map a prefixes) ns).isSome := by
  unfold build_id_map
  apply fallbackPhase_mem_isSome
  exact (List.perm_insertionSort _ _).mem_iff.mpr h

theorem C4_witness : (alGet (build_id_map cexRunC []) "http://a.org/core").isSome :=
  C4_id_map_total cexRunC [] "http://a.org/core" (by decide)

theorem C4_counterexample :
    alGet (build_id_map cexRunC []) "http://a.org/core" = some "core" ∧
    alGet (build_id_map cexRunC []) "http://b.org/core" = some "core" ∧
    "http://a.org/core" ≠ "http://b.org/core" ∧
    "http://a.org/core" ∈ nsKeys cexRunC ∧
    "http://b.org/core" ∈ nsKeys cexRunC := by decide

/-! ## Claim C5 -/

theorem fallback_get_stable (l : List String) :
    ∀ (m : List (String × String)) (c : Nat) (x : String), x ∉ l →
      alGet (fallbackPhase (m, c) l).1 x = alGet m x := by
  induction l with
  | nil => intro m c x _; rfl
  | cons y rest ih =>
    intro m c x hx
    have hxy : x ≠ y := fun h => hx (h ▸ List.mem_cons_self y rest)
    have hxrest : x ∉ rest := fun h => hx (List.mem_cons_of_mem y h)
    have hstep : fallbackPhase (m, c) (y :: rest) =
        fallbackPhase (if alGet m y = none
          then (alUpdate m y (fun _ => make_short_id y c), c + 1)
          else (m, c)) rest := by
      unfold fallbackPhase
      rw [List.foldl_cons]
    rw [hstep]
    split
    · rw [ih _ _ x hxrest]
      exact alGet_update_ne _ _ _ _ (fun h => hxy h.symm)
    · exact ih _ _ x hxrest

theorem fallback_char (l : List String) :
    ∀ (m : List (String × String)) (c : Nat), l.Nodup →
      ∀ (j : Nat) (ns : String),
        (l.filter (fun x => decide (alGet m x = none))).get? j = some ns →
        alGet (fallbackPhase (m, c) l).1 ns = some (make_short_id ns (c + j)) := by
  induction l with
  | nil => intro m c _ j ns h; cases h
  | cons x rest ih =>
    intro m c hnd j ns hj
    have hxrest : x ∉ rest := (List.nodup_cons.mp hnd).1
    have hrestnd : rest.Nodup := (List.nodup_cons.mp hnd).2
    have hstep : fallbackPhase (m, c) (x :: rest) =
        fallbackPhase (if alGet m x = none
          then (alUpdate m x (fun _ => make_short_id x c), c + 1)
          else (m, c)) rest := by
      unfold fallbackPhase
      rw [List.foldl_cons]
    by_cases hx : alGet m x = none
    · have hfil : (x :: rest).filter (fun y => decide (alGet m y = none)) =
          x :: rest.filter (fun y => decide (alGet m y = none)) :=
        List.filter_cons_of_pos (by simp [hx])
      rw [hfil] at hj
      rw [hstep, if_pos hx]
      cases j with
      | zero =>
        have hns : ns = x := by
          simp only [List.get?] at hj
          injection hj with hj
          exact hj.symm
        subst hns
        rw [fallback_get_stable rest _ _ ns hxrest]
        rw [alGet_update_self]
        rw [Nat.add_zero]
      | succ k =>
        have hj' : (rest.filter (fun y => decide (alGet m y = none))).get? k = some ns := hj
        have hcong : rest.filter (fun y => decide (alGet m y = none)) =
            rest.filter (fun y => decide (alGet
              (alUpdate m x (fun _ => make_short_id x c)) y = none)) := by
          apply List.filter_congr
          intro y hy
          have hyx : x ≠ y := fun h => hxrest (h ▸ hy)
          rw [alGet_update_ne _ _ _ _ hyx]
        rw [hcong] at hj'
        have := ih (alUpdate m x (fun _ => make_short_id x c)) (c + 1) hrestnd k ns hj'
        rw [show c + (k + 1) = c + 1 + k by omega]
        exact this
    · have hfil : (x :: rest).filter (fun y => decide (alGet m y = none)) =
          rest.filter (fun y => decide (alGet m y = none)) :=
        List.filter_cons_of_neg (by simp [hx])
      rw [hfil] at hj
      rw [hstep, if_neg hx]
      exact ih m c hrestnd j ns hj

/-- The sorted namespaces not covered by a declared prefix, in the order
the fallback loop of `_build_id_map` visits them. -/
def unprefixedSorted (a : Analyzer) (prefixes : List (String × String)) : List String :=
  (sortStrings (nsKeys a)).filter
    (fun ns => decide (alGet (prefixPhase a prefixes) ns = none))

/-- The id derived from the last path/fragment segment in
`_make_short_id`, before the fallback test. -/
def derivedId (ns : String) : String :=
  lowerReplace (afterLast '#' (afterLast '/' (rstripSH ns)))

/-- C5 (amended): when deriving an identifier yields the empty string, the
assigned fallback identifier is `ns<N>` where `N` counts every namespace
the fallback loop has visited that lacked a declared prefix — derived
identifiers included, not only fallback ones — so the namespace at
position `j` (0-based) of the unprefixed sorted list receives `ns<j+1>`. -/
theorem C5_fallback_counter (a : Analyzer) (prefixes : List (String × String))
    (hnd : (nsKeys a).Nodup) (j : Nat) (ns : String)
    (hj : (unprefixedSorted a prefixes).get? j = some ns)
    (hfb : rstripSH ns = "" ∨ derivedId ns = "") :
    alGet (build_id_map a prefixes) ns = some ("ns" ++ toString (j + 1)) := by
  have hsortnd : (sortStrings (nsKeys a)).Nodup :=
    (List.perm_insertionSort _ _).nodup_iff.mpr hnd
  have h := fallback_char (sortStrings (nsKeys a)) (prefixPhase a prefixes) 1
    hsortnd j ns hj
  show alGet (fallbackPhase (prefixPhase a prefixes, 1) (sortStrings (nsKeys a))).1 ns = _
  rw [h]
  congr 1
  unfold make_short_id
  rcases hfb with h1 | h1
  · rw [if_pos h1, Nat.add_comm 1 j]
  · by_cases h0 : rstripSH ns = ""
    · rw [if_pos h0, Nat.add_comm 1 j]
    · rw [if_neg h0]
      dsimp only
      rw [show lowerReplace (afterLast '#' (afterLast '/' (rstripSH ns))) = derivedId ns from rfl]
      rw [h1]
      rw [if_pos rfl, Nat.add_comm 1 j]

theorem C5_witness : alGet (build_id_map fbState []) "#" = some "ns2" := by
  have h := C5_fallback_counter fbState [] (by decide) 1 "#" (by decide)
    (Or.inl (by decide))
  rw [h]
  decide

theorem C5_counterexample :
    (sortStrings (nsKeys fbState)).filter
      (fun ns => decide (rstripSH ns = "" ∨ derivedId ns = "")) = ["#"] ∧
    alGet (build_id_map fbState []) "#" = some "ns2" ∧
    some ("ns2" : String) ≠ some "ns1" := by decide

/-! ## Claim C1 -/

theorem build_nodes_eq (splitUri : String → Option String) (g : List Triple)
    (a : Analyzer) (prefixes : List (String × String)) :
    (build_result_document splitUri g a prefixes).nodes =
      mkNodes (attach_descriptions_from_graph splitUri g a)
        (build_id_map (attach_descriptions_from_graph splitUri g a) prefixes)
        (incomingMap (attach_descriptions_from_graph splitUri g a))
        (outgoingMap (attach_descriptions_from_graph splitUri g a)) :=
  rfl

theorem mkNodes_namespaces (a : Analyzer) (idMap : List (String × String))
    (inc outg : List (String × Nat)) :
    (mkNodes a idMap inc outg).map (fun n => n.namespace_) =
      alKeys (sortByKey a.namespaces) := by
  unfold mkNodes alKeys
  rw [List.map_map]
  rfl

theorem nodes_ns_perm (a : Analyzer) (idMap : List (String × String))
    (inc outg : List (String × Nat)) :
    ((mkNodes a idMap inc outg).map (fun n => n.namespace_)).Perm (nsKeys a) := by
  rw [mkNodes_namespaces]
  unfold sortByKey nsKeys alKeys
  exact (List.perm_insertionSort _ _).map (fun p : String × OntologyStats => p.1)

/-- C1 (amended): in every run, every namespace holding a Statistics entry,
every source namespace of the Reference Table, and every source and
destination namespace of the Import Table appears exactly once in the node
list of the document; no namespace appears twice.  (Destination namespaces
of the Reference Table, by contrast, may be absent from the node list:
they are never given a Statistics entry.) -/
theorem C1_node_list (splitUri : String → Option String) (ops : List AnalyzerOp)
    (g : List Triple) (prefixes : List (String × String)) :
    (((build_result_document splitUri g (runOps splitUri ops) prefixes).nodes.map
        (fun n => n.namespace_)).Nodup) ∧
    (∀ ns ∈ nsKeys (attach_descriptions_from_graph splitUri g (runOps splitUri ops)),
      ns ∈ (build_result_document splitUri g (runOps splitUri ops) prefixes).nodes.map
        (fun n => n.namespace_)) ∧
    (∀ p ∈ (runOps splitUri ops).references,
      p.1 ∈ (build_result_document splitUri g (runOps splitUri ops) prefixes).nodes.map
        (fun n => n.namespace_)) ∧
    (∀ p ∈ (runOps splitUri ops).importsTable,
      p.1 ∈ (build_result_document splitUri g (runOps splitUri ops) prefixes).nodes.map
          (fun n => n.namespace_) ∧
      ∀ d ∈ p.2,
        d ∈ (build_result_document splitUri g (runOps splitUri ops) prefixes).nodes.map
          (fun n => n.namespace_)) := by
  have hInv : Inv (runOps splitUri ops) := Inv_runOps splitUri ops
  have hInv' : Inv (attach_descriptions_from_graph splitUri g (runOps splitUri ops)) :=
    Inv_attach splitUri g _ hInv
  have hperm := nodes_ns_perm (attach_descriptions_from_graph splitUri g (runOps splitUri ops))
    (build_id_map (attach_descriptions_from_graph splitUri g (runOps splitUri ops)) prefixes)
    (incomingMap (attach_descriptions_from_graph splitUri g (runOps splitUri ops)))
    (outgoingMap (attach_descriptions_from_graph splitUri g (runOps splitUri ops)))
  rw [build_nodes_eq]
  refine ⟨hperm.nodup_iff.mpr hInv'.nsNodup, ?_, ?_, ?_⟩
  · intro ns h
    exact hperm.mem_iff.mpr h
  · intro p hp
    exact hperm.mem_iff.mpr (nsKeys_attach_sub splitUri g _ (hInv.refSrc p hp))
  · intro p hp
    refine ⟨hperm.mem_iff.mpr (nsKeys_attach_sub splitUri g _ (hInv.impSrc p hp)), ?_⟩
    intro d hd
    exact hperm.mem_iff.mpr (nsKeys_attach_sub splitUri g _ (hInv.impDst p hp d hd))

theorem C1_witness :
    ("http://a.org", ["http://b.org"]) ∈ impRun.importsTable ∧
    "http://a.org" ∈ impDoc.nodes.map (fun n => n.namespace_) ∧
    "http://b.org" ∈ impDoc.nodes.map (fun n => n.namespace_) := by
  refine ⟨by decide, ?_, ?_⟩
  · exact ((C1_node_list noSplit impOps [] []).2.2.2
      ("http://a.org", ["http://b.org"]) (by decide)).1
  · exact ((C1_node_list noSplit impOps [] []).2.2.2
      ("http://a.org", ["http://b.org"]) (by decide)).2 "http://b.org" (by decide)

theorem C1_counterexample :
    refWeight cexRunA "http://a.org/x" "http://b.org/y" = some 1 ∧
    cexDocA.nodes.map (fun n => n.namespace_) = ["http://a.org/x"] ∧
    "http://b.org/y" ∉ cexDocA.nodes.map (fun n => n.namespace_) := by decide

/-! ## Sums over the edge map -/

theorem alGet_mem {κ α : Type} [DecidableEq κ] (l : List (κ × α)) (k : κ) (v : α)
    (h : alGet l k = some v) : (k, v) ∈ l := by
  induction l with
  | nil => cases h
  | cons p rest ih =>
    obtain ⟨k', v'⟩ := p
    by_cases hk : k' = k
    · subst hk
      simp only [alGet, if_pos rfl] at h
      injection h with h
      simp [h]
    · simp only [alGet, if_neg hk] at h
      exact List.mem_cons_of_mem _ (ih h)

theorem alGet_update_cases {κ α : Type} [DecidableEq κ] (l : List (κ × α))
    (k j : κ) (f : Option α → α) (v : α)
    (h : alGet (alUpdate l k f) j = some v) :
    (j = k ∧ v = f (alGet l k)) ∨ alGet l j = some v := by
  by_cases hk : j = k
  · subst hk
    rw [alGet_update_self] at h
    injection h with h
    exact Or.inl ⟨rfl, h.symm⟩
  · rw [alGet_update_ne _ _ _ _ (fun he => hk he.symm)] at h
    exact Or.inr h

theorem sum_map_congr {α : Type} (l : List α) (f g : α → Nat)
    (h : ∀ x ∈ l, f x = g x) : (l.map f).sum = (l.map g).sum := by
  induction l with
  | nil => rfl
  | cons x l ih =>
    simp only [List.map_cons, List.sum_cons]
    rw [h x (by simp), ih (fun y hy => h y (by simp [hy]))]

theorem if_sum_filter {α : Type} (l : List α) (q : α → Bool) (v : α → Nat) :
    (l.map (fun x => if q x then v x else 0)).sum = ((l.filter q).map v).sum := by
  induction l with
  | nil => rfl
  | cons x l ih =>
    by_cases hq : q x
    · simp only [List.map_cons, List.sum_cons, if_pos hq, List.filter_cons_of_pos hq]
      rw [ih]
    · simp only [List.map_cons, List.sum_cons, if_neg hq,
        List.filter_cons_of_neg (by simpa using hq)]
      rw [ih]
      omega

theorem sum_single_key {β : Type} (l : List (String × β)) (N : String) (F : β → Nat)
    (hnd : (alKeys l).Nodup) :
    (l.map (fun st => if st.1 = N then F st.2 else 0)).sum =
      (match alGet l N with | some v => F v | none => 0) := by
  induction l with
  | nil => rfl
  | cons p rest ih =>
    obtain ⟨k, v⟩ := p
    have hk : k ∉ alKeys rest := (List.nodup_cons.mp hnd).1
    have hrest := (List.nodup_cons.mp hnd).2
    by_cases hkN : k = N
    · subst hkN
      simp only [List.map_cons, List.sum_cons, if_pos rfl, alGet, if_pos rfl]
      have hz : (rest.map (fun st => if st.1 = k then F st.2 else 0)).sum = 0 := by
        have : ∀ st ∈ rest, (if st.1 = k then F st.2 else 0) = 0 := by
          intro st hst
          rw [if_neg]
          intro he
          exact hk (he ▸ List.mem_map.mpr ⟨st, hst, rfl⟩)
        rw [sum_map_congr rest _ (fun _ => 0) this]
        simp
      rw [hz]
      simp
    · simp only [List.map_cons, List.sum_cons, if_neg hkN, alGet, if_neg hkN]
      rw [ih hrest]
      omega

/-- Sum of `reference_count` over edge-map entries whose key satisfies `p`. -/
def keyedRefSum (p : String × String → Bool) (m : List ((String × String) × EdgeDoc)) : Nat :=
  ((m.filter (fun x => p x.1)).map (fun x => x.2.reference_count)).sum

/-- Sum of `reference_count` over output edges satisfying `p`. -/
def edgeSum (p : EdgeDoc → Bool) (edges : List EdgeDoc) : Nat :=
  ((edges.filter p).map (fun e => e.reference_count)).sum

theorem keyedRefSum_nil (p : String × String → Bool) : keyedRefSum p [] = 0 := rfl

theorem keyedRefSum_cons (p : String × String → Bool)
    (x : (String × String) × EdgeDoc) (rest : List ((String × String) × EdgeDoc)) :
    keyedRefSum p (x :: rest) =
      (if p x.1 then x.2.reference_count else 0) + keyedRefSum p rest := by
  by_cases hp : p x.1
  · simp [keyedRefSum, List.filter_cons, hp]
  · simp [keyedRefSum, List.filter_cons, hp]

theorem keyedRefSum_alUpdate_delta (p : String × String → Bool)
    (m : List ((String × String) × EdgeDoc)) (k : String × String)
    (f : Option EdgeDoc → EdgeDoc) (d : Nat)
    (hf : ∀ v : Option EdgeDoc, (f v).reference_count =
      (match v with | some e => e.reference_count | none => 0) + d) :
    keyedRefSum p (alUpdate m k f) = keyedRefSum p m + (if p k then d else 0) := by
  induction m with
  | nil =>
    rw [show alUpdate ([] : List ((String × String) × EdgeDoc)) k f = [(k, f none)] from rfl]
    rw [keyedRefSum_cons, keyedRefSum_nil, hf none]
    by_cases hp : p k <;> simp [hp]
  | cons x rest ih =>
    obtain ⟨k', e⟩ := x
    by_cases hk : k' = k
    · subst hk
      rw [show alUpdate ((k', e) :: rest) k' f = (k', f (some e)) :: rest from by
        simp [alUpdate]]
      rw [keyedRefSum_cons, keyedRefSum_cons, hf (some e)]
      by_cases hp : p k'
      · simp [hp]
        omega
      · simp [hp]
    · rw [show alUpdate ((k', e) :: rest) k f = (k', e) :: alUpdate rest k f from by
        simp [alUpdate, hk]]
      rw [keyedRefSum_cons, keyedRefSum_cons, ih]
      omega

theorem keyedRefSum_addRef (p : String × String → Bool)
    (m : List ((String × String) × EdgeDoc)) (si di : String) (c : Nat) :
    keyedRefSum p (edgeAddRef m si di c) =
      keyedRefSum p m + (if p (si, di) then c else 0) := by
  unfold edgeAddRef
  exact keyedRefSum_alUpdate_delta p m (si, di) _ c (by intro v; cases v <;> simp)

theorem keyedRefSum_setImp (p : String × String → Bool)
    (m : List ((String × String) × EdgeDoc)) (si di : String) :
    keyedRefSum p (edgeSetImp m si di) = keyedRefSum p m := by
  unfold edgeSetImp
  have := keyedRefSum_alUpdate_delta p m (si, di)
    (fun v => match v with
      | some e => { e with importFlag := true }
      | none => { source := si, target := di, reference_count := 0, importFlag := true })
    0 (by intro v; cases v <;> rfl)
  rw [this]
  by_cases hp : p (si, di) <;> simp [hp]

/-- Weight contributed by one Reference-Table row to the edges selected
by `p`. -/
def refEdgeDelta (idMap : List (String × String)) (p : String × String → Bool)
    (st : String × List (String × Nat)) : Nat :=
  match idLookup idMap st.1 with
  | none => 0
  | some si =>
    (st.2.map (fun dc =>
      match idLookup idMap dc.1 with
      | none => 0
      | some di => if p (si, di) then dc.2 else 0)).sum

theorem keyedRefSum_refEdgeInner (idMap : List (String × String)) (si : String)
    (p : String × String → Bool) (m2 : List ((String × String) × EdgeDoc))
    (dc : String × Nat) :
    keyedRefSum p (refEdgeInner idMap si m2 dc) =
      keyedRefSum p m2 +
        (match idLookup idMap dc.1 with
         | none => 0
         | some di => if p (si, di) then dc.2 else 0) := by
  unfold refEdgeInner
  cases idLookup idMap dc.1 with
  | none => simp
  | some di => exact keyedRefSum_addRef p m2 si di dc.2

theorem keyedRefSum_refEdgeStep (idMap : List (String × String))
    (p : String × String → Bool) (m : List ((String × String) × EdgeDoc))
    (st : String × List (String × Nat)) :
    keyedRefSum p (refEdgeStep idMap m st) =
      keyedRefSum p m + refEdgeDelta idMap p st := by
  unfold refEdgeStep refEdgeDelta
  cases idLookup idMap st.1 with
  | none => simp
  | some si =>
    exact foldl_measure (keyedRefSum p) (refEdgeInner idMap si) _
      (fun m2 dc => keyedRefSum_refEdgeInner idMap si p m2 dc) st.2 m

theorem keyedRefSum_refPhase (idMap : List (String × String))
    (p : String × String → Bool) (l : List (String × List (String × Nat)))
    (m : List ((String × String) × EdgeDoc)) :
    keyedRefSum p (l.foldl (refEdgeStep idMap) m) =
      keyedRefSum p m + (l.map (refEdgeDelta idMap p)).sum :=
  foldl_measure (keyedRefSum p) (refEdgeStep idMap) (refEdgeDelta idMap p)
    (fun m st => keyedRefSum_refEdgeStep idMap p m st) l m

theorem keyedRefSum_impEdgeStep (idMap : List (String × String))
    (p : String × String → Bool) (m : List ((String × String) × EdgeDoc))
    (sd : String × List String) :
    keyedRefSum p (impEdgeStep idMap m sd) = keyedRefSum p m := by
  unfold impEdgeStep
  cases idLookup idMap sd.1 with
  | none => rfl
  | some si =>
    have := foldl_measure (keyedRefSum p) (impEdgeInner idMap si) (fun _ => 0)
      (fun m2 d => by
        unfold impEdgeInner
        cases idLookup idMap d with
        | none => simp
        | some di => simpa using keyedRefSum_setImp p m2 si di) sd.2 m
    simpa using this

theorem keyedRefSum_impPhase (idMap : List (String × String))
    (p : String × String → Bool) (l : List (String × List String))
    (m : List ((String × String) × EdgeDoc)) :
    keyedRefSum p (l.foldl (impEdgeStep idMap) m) = keyedRefSum p m := by
  have := foldl_measure (keyedRefSum p) (impEdgeStep idMap) (fun _ => 0)
    (fun m sd => by simpa using keyedRefSum_impEdgeStep idMap p m sd) l m
  simpa using this

theorem keyedRefSum_mkEdgeMap (a : Analyzer) (idMap : List (String × String))
    (p : String × String → Bool) :
    keyedRefSum p (mkEdgeMap a idMap) =
      (a.references.map (refEdgeDelta idMap p)).sum := by
  unfold mkEdgeMap
  rw [keyedRefSum_impPhase, keyedRefSum_refPhase, keyedRefSum_nil]
  omega

/-- Key/field coherence of the edge map: every entry's `source`/`target`
fields equal its key components. -/
def edgeWF (m : List ((String × String) × EdgeDoc)) : Prop :=
  ∀ x ∈ m, x.2.source = x.1.1 ∧ x.2.target = x.1.2

theorem edgeWF_addRef (m : List ((String × String) × EdgeDoc)) (si di : String)
    (c : Nat) (h : edgeWF m) : edgeWF (edgeAddRef m si di c) := by
  unfold edgeAddRef
  apply alUpdate_forall _ _ _ _ h
  intro v hv
  cases v with
  | none => exact ⟨rfl, rfl⟩
  | some e =>
    obtain ⟨h1, h2⟩ := hv e rfl
    exact ⟨h1, h2⟩

theorem edgeWF_setImp (m : List ((String × String) × EdgeDoc)) (si di : String)
    (h : edgeWF m) : edgeWF (edgeSetImp m si di) := by
  unfold edgeSetImp
  apply alUpdate_forall _ _ _ _ h
  intro v hv
  cases v with
  | none => exact ⟨rfl, rfl⟩
  | some e =>
    obtain ⟨h1, h2⟩ := hv e rfl
    exact ⟨h1, h2⟩

theorem edgeWF_mkEdgeMap (a : Analyzer) (idMap : List (String × String)) :
    edgeWF (mkEdgeMap a idMap) := by
  unfold mkEdgeMap
  apply foldl_pres edgeWF (impEdgeStep idMap)
  · intro m sd hm
    unfold impEdgeStep
    cases idLookup idMap sd.1 with
    | none => exact hm
    | some si =>
      apply foldl_pres edgeWF (impEdgeInner idMap si) _ sd.2 m hm
      intro m2 d hm2
      unfold impEdgeInner
      cases idLookup idMap d with
      | none => exact hm2
      | some di => exact edgeWF_setImp m2 si di hm2
  · apply foldl_pres edgeWF (refEdgeStep idMap)
    · intro m st hm
      unfold refEdgeStep
      cases idLookup idMap st.1 with
      | none => exact hm
      | some si =>
        apply foldl_pres edgeWF (refEdgeInner idMap si) _ st.2 m hm
        intro m2 dc hm2
        unfold refEdgeInner
        cases idLookup idMap dc.1 with
        | none => exact hm2
        | some di => exact edgeWF_addRef m2 si di dc.2 hm2
    · intro x hx
      cases hx

theorem edgeSum_of_keyed (m : List ((String × String) × EdgeDoc))
    (p : String × String → Bool) (q : EdgeDoc → Bool)
    (hpq : ∀ x ∈ m, q x.2 = p x.1) :
    edgeSum q (m.map (fun x => x.2)) = keyedRefSum p m := by
  induction m with
  | nil => rfl
  | cons x rest ih =>
    have hx : q x.2 = p x.1 := hpq x (by simp)
    have hrest : ∀ y ∈ rest, q y.2 = p y.1 := fun y hy => hpq y (by simp [hy])
    by_cases hp : p x.1
    · simp only [List.map_cons]
      unfold edgeSum keyedRefSum
      rw [List.filter_cons_of_pos (by simp [hx, hp]),
        List.filter_cons_of_pos (by simp [hp])]
      simp only [List.map_cons, List.sum_cons]
      have := ih hrest
      unfold edgeSum keyedRefSum at this
      rw [this]
    · simp only [List.map_cons]
      unfold edgeSum keyedRefSum
      rw [List.filter_cons_of_neg (by simp [hx, hp]),
        List.filter_cons_of_neg (by simp [hp])]
      exact ih hrest

/-! ## Presence of import edges (claim C6) -/

/-- The edge map holds the key with at least weight `w`. -/
def Pcnt (k : String × String) (w : Nat)
    (m : List ((String × String) × EdgeDoc)) : Prop :=
  ∃ e, alGet m k = some e ∧ w ≤ e.reference_count

/-- The edge map holds the key with at least weight `w` and its
`import` flag set. -/
def Pflag (k : String × String) (w : Nat)
    (m : List ((String × String) × EdgeDoc)) : Prop :=
  ∃ e, alGet m k = some e ∧ w ≤ e.reference_count ∧ e.importFlag = true

/-- A fold establishes `Q` once it has processed a designated element,
provided `P` is carried up to it and `Q` is kept afterwards. -/
theorem foldl_establish {α β : Type} (P Q : β → Prop) (f : β → α → β) (x : α)
    (hP : ∀ b y, P b → P (f b y)) (hQ : ∀ b y, Q b → Q (f b y))
    (hEst : ∀ b, P b → Q (f b x)) :
    ∀ (l : List α), x ∈ l → ∀ b, P b → Q (l.foldl f b) := by
  intro l
  induction l with
  | nil => intro hx; cases hx
  | cons y rest ih =>
    intro hx b hb
    rcases List.mem_cons.mp hx with hxy | hxr
    · subst hxy
      exact foldl_pres Q f hQ rest (f b x) (hEst b hb)
    · exact ih hxr (f b y) (hP b y hb)

theorem Pcnt_addRef (k : String × String) (w : Nat)
    (m : List ((String × String) × EdgeDoc)) (si di : String) (c : Nat)
    (h : Pcnt k w m) : Pcnt k w (edgeAddRef m si di c) := by
  obtain ⟨e, he, hw⟩ := h
  unfold edgeAddRef
  by_cases hk : k = (si, di)
  · subst hk
    refine ⟨_, alGet_update_self _ _ _, ?_⟩
    rw [he]
    simp only
    omega
  · exact ⟨e, by rw [alGet_update_ne _ _ _ _ (fun hh => hk hh.symm)]; exact he, hw⟩

theorem Pcnt_addRef_self (m : List ((String × String) × EdgeDoc))
    (si di : String) (c : Nat) : Pcnt (si, di) c (edgeAddRef m si di c) := by
  unfold edgeAddRef
  refine ⟨_, alGet_update_self _ _ _, ?_⟩
  cases alGet m (si, di) with
  | none => simp
  | some e => simp

theorem Pcnt_setImp (k : String × String) (w : Nat)
    (m : List ((String × String) × EdgeDoc)) (si di : String)
    (h : Pcnt k w m) : Pcnt k w (edgeSetImp m si di) := by
  obtain ⟨e, he, hw⟩ := h
  unfold edgeSetImp
  by_cases hk : k = (si, di)
  · subst hk
    refine ⟨_, alGet_update_self _ _ _, ?_⟩
    rw [he]
    exact hw
  · exact ⟨e, by rw [alGet_update_ne _ _ _ _ (fun hh => hk hh.symm)]; exact he, hw⟩

theorem Pflag_setImp (k : String × String) (w : Nat)
    (m : List ((String × String) × EdgeDoc)) (si di : String)
    (h : Pflag k w m) : Pflag k w (edgeSetImp m si di) := by
  obtain ⟨e, he, hw, hf⟩ := h
  unfold edgeSetImp
  by_cases hk : k = (si, di)
  · subst hk
    refine ⟨_, alGet_update_self _ _ _, ?_⟩
    rw [he]
    exact ⟨hw, rfl⟩
  · exact ⟨e, by rw [alGet_update_ne _ _ _ _ (fun hh => hk hh.symm)]; exact he, hw, hf⟩

theorem Pflag_setImp_self (m : List ((String × String) × EdgeDoc))
    (si di : String) (w : Nat) (h : Pcnt (si, di) w m) :
    Pflag (si, di) w (edgeSetImp m si di) := by
  obtain ⟨e, he, hw⟩ := h
  unfold edgeSetImp
  refine ⟨_, alGet_update_self _ _ _, ?_⟩
  rw [he]
  exact ⟨hw, rfl⟩

theorem Pcnt_refEdgeInner (idMap : List (String × String)) (si : String)
    (k : String × String) (w : Nat) (m2 : List ((String × String) × EdgeDoc))
    (dc : String × Nat) (h : Pcnt k w m2) :
    Pcnt k w (refEdgeInner idMap si m2 dc) := by
  unfold refEdgeInner
  cases idLookup idMap dc.1 with
  | none => exact h
  | some di => exact Pcnt_addRef k w m2 si di dc.2 h

theorem Pcnt_refEdgeStep (idMap : List (String × String)) (k : String × String)
    (w : Nat) (m : List ((String × String) × EdgeDoc))
    (st : String × List (String × Nat)) (h : Pcnt k w m) :
    Pcnt k w (refEdgeStep idMap m st) := by
  unfold refEdgeStep
  cases idLookup idMap st.1 with
  | none => exact h
  | some si =>
    exact foldl_pres (Pcnt k w) (refEdgeInner idMap si)
      (fun m2 dc h2 => Pcnt_refEdgeInner idMap si k w m2 dc h2) st.2 m h

theorem Pcnt_impEdgeInner (idMap : List (String × String)) (si : String)
    (k : String × String) (w : Nat) (m2 : List ((String × String) × EdgeDoc))
    (d : String) (h : Pcnt k w m2) : Pcnt k w (impEdgeInner idMap si m2 d) := by
  unfold impEdgeInner
  cases idLookup idMap d with
  | none => exact h
  | some di => exact Pcnt_setImp k w m2 si di h

theorem Pcnt_impEdgeStep (idMap : List (String × String)) (k : String × String)
    (w : Nat) (m : List ((String × String) × EdgeDoc)) (sd : String × List String)
    (h : Pcnt k w m) : Pcnt k w (impEdgeStep idMap m sd) := by
  unfold impEdgeStep
  cases idLookup idMap sd.1 with
  | none => exact h
  | some si =>
    exact foldl_pres (Pcnt k w) (impEdgeInner idMap si)
      (fun m2 d h2 => Pcnt_impEdgeInner idMap si k w m2 d h2) sd.2 m h

theorem Pflag_impEdgeInner (idMap : List (String × String)) (si : String)
    (k : String × String) (w : Nat) (m2 : List ((String × String) × EdgeDoc))
    (d : String) (h : Pflag k w m2) : Pflag k w (impEdgeInner idMap si m2 d) := by
  unfold impEdgeInner
  cases idLookup idMap d with
  | none => exact h
  | some di => exact Pflag_setImp k w m2 si di h

theorem Pflag_impEdgeStep (idMap : List (String × String)) (k : String × String)
    (w : Nat) (m : List ((String × String) × EdgeDoc)) (sd : String × List String)
    (h : Pflag k w m) : Pflag k w (impEdgeStep idMap m sd) := by
  unfold impEdgeStep
  cases idLookup idMap sd.1 with
  | none => exact h
  | some si =>
    exact foldl_pres (Pflag k w) (impEdgeInner idMap si)
      (fun m2 d h2 => Pflag_impEdgeInner idMap si k w m2 d h2) sd.2 m h

/-- Phase 1 establishes presence of the edge for a Reference-Table entry
whose source and destination both have usable ids. -/
theorem refPhase_Pcnt (idMap : List (String × String))
    (refs : List (String × List (String × Nat)))
    (src : String) (inner : List (String × Nat)) (d : String) (c : Nat)
    (si di : String)
    (hmem : (src, inner) ∈ refs) (hdc : (d, c) ∈ inner)
    (hsi : idLookup idMap src = some si) (hdi : idLookup idMap d = some di) :
    Pcnt (si, di) c (refs.foldl (refEdgeStep idMap) []) := by
  apply foldl_establish (fun _ => True) (Pcnt (si, di) c) (refEdgeStep idMap)
    (src, inner) (fun _ _ _ => trivial)
    (fun m st h => Pcnt_refEdgeStep idMap _ _ m st h) ?_ refs hmem [] trivial
  intro m _
  unfold refEdgeStep
  simp only [hsi]
  apply foldl_establish (fun _ => True) (Pcnt (si, di) c) (refEdgeInner idMap si)
    (d, c) (fun _ _ _ => trivial)
    (fun m2 dc h2 => Pcnt_refEdgeInner idMap si _ _ m2 dc h2) ?_ inner hdc m trivial
  intro m2 _
  unfold refEdgeInner
  simp only [hdi]
  exact Pcnt_addRef_self m2 si di c

/-- Phase 2 sets the `import` flag for an Import-Table pair, keeping the
accumulated weight. -/
theorem impPhase_Pflag (idMap : List (String × String))
    (imps : List (String × List String)) (src : String) (dset : List String)
    (d : String) (w : Nat) (si di : String)
    (hmem : (src, dset) ∈ imps) (hd : d ∈ dset)
    (hsi : idLookup idMap src = some si) (hdi : idLookup idMap d = some di)
    (m : List ((String × String) × EdgeDoc)) (hm : Pcnt (si, di) w m) :
    Pflag (si, di) w (imps.foldl (impEdgeStep idMap) m) := by
  apply foldl_establish (Pcnt (si, di) w) (Pflag (si, di) w) (impEdgeStep idMap)
    (src, dset) (fun b y hb => Pcnt_impEdgeStep idMap _ _ b y hb)
    (fun b y hb => Pflag_impEdgeStep idMap _ _ b y hb) ?_ imps hmem m hm
  intro b hb
  unfold impEdgeStep
  simp only [hsi]
  apply foldl_establish (Pcnt (si, di) w) (Pflag (si, di) w) (impEdgeInner idMap si)
    d (fun b2 y hb2 => Pcnt_impEdgeInner idMap si _ _ b2 y hb2)
    (fun b2 y hb2 => Pflag_impEdgeInner idMap si _ _ b2 y hb2) ?_ dset hd b hb
  intro b2 hb2
  unfold impEdgeInner
  simp only [hdi]
  exact Pflag_setImp_self b2 si di w hb2

/-! ## Values and keys of the id map -/

theorem ns_append_ne_empty (t : String) : ("ns" ++ t) ≠ "" := by
  intro h
  have := congrArg String.data h
  rw [String.data_append] at this
  cases this

theorem make_short_id_ne_empty (ns : String) (i : Nat) : make_short_id ns i ≠ "" := by
  show (if rstripSH ns = "" then "ns" ++ toString i
    else if lowerReplace (afterLast '#' (afterLast '/' (rstripSH ns))) = ""
      then "ns" ++ toString i
      else lowerReplace (afterLast '#' (afterLast '/' (rstripSH ns)))) ≠ ""
  split
  · exact ns_append_ne_empty _
  · split
    · exact ns_append_ne_empty _
    · next h => exact h

theorem prefixPhase_fold_vals (a : Analyzer) :
    ∀ (l : List (String × String)) (m : List (String × String)),
      (∀ pq ∈ l, pq.1 ≠ "") → (∀ ns v, alGet m ns = some v → v ≠ "") →
      ∀ ns v,
        alGet (l.foldl (fun m pq =>
          match normalize_ns (some pq.2) with
          | some nsStr =>
            if (alGet a.namespaces nsStr).isSome ∧ alGet m nsStr = none
            then alUpdate m nsStr (fun _ => pq.1) else m
          | none => m) m) ns = some v → v ≠ "" := by
  intro l
  induction l with
  | nil => intro m _ hm ns v h; exact hm ns v h
  | cons pq rest ih =>
    intro m hl hm ns v h
    have hpq : pq.1 ≠ "" := hl pq (by simp)
    have hrest : ∀ x ∈ rest, x.1 ≠ "" := fun x hx => hl x (by simp [hx])
    refine ih _ hrest ?_ ns v h
    intro ns' v' h'
    dsimp only at h'
    cases hn : normalize_ns (some pq.2) with
    | none =>
      rw [hn] at h'
      exact hm ns' v' h'
    | some nsStr =>
      rw [hn] at h'
      dsimp only at h'
      by_cases hg : (alGet a.namespaces nsStr).isSome ∧ alGet m nsStr = none
      · rw [if_pos hg] at h'
        rcases alGet_update_cases m nsStr ns' _ v' h' with ⟨_, hv⟩ | hold
        · rw [hv]; exact hpq
        · exact hm ns' v' hold
      · rw [if_neg hg] at h'
        exact hm ns' v' h'

theorem fallbackPhase_vals (l : List String) :
    ∀ (start : List (String × String) × Nat),
      (∀ ns v, alGet start.1 ns = some v → v ≠ "") →
      ∀ ns v, alGet (fallbackPhase start l).1 ns = some v → v ≠ "" := by
  induction l with
  | nil => intro start h ns v hv; exact h ns v hv
  | cons x rest ih =>
    intro start h ns v hv
    have hstep : fallbackPhase start (x :: rest) =
        fallbackPhase (if alGet start.1 x = none
          then (alUpdate start.1 x (fun _ => make_short_id x start.2), start.2 + 1)
          else start) rest := by
      unfold fallbackPhase
      rw [List.foldl_cons]
    rw [hstep] at hv
    refine ih _ ?_ ns v hv
    intro ns' v' h'
    split at h'
    · rcases alGet_update_cases start.1 x ns' _ v' h' with ⟨_, hv'⟩ | hold
      · rw [hv']; exact make_short_id_ne_empty _ _
      · exact h ns' v' hold
    · exact h ns' v' h'

theorem build_id_map_vals (a : Analyzer) (prefixes : List (String × String))
    (hne : ∀ pq ∈ prefixes, pq.1 ≠ "") :
    ∀ ns v, alGet (build_id_map a prefixes) ns = some v → v ≠ "" := by
  apply fallbackPhase_vals
  apply prefixPhase_fold_vals a prefixes [] hne
  intro ns v h
  cases h

theorem prefixPhase_fold_keys (a : Analyzer) :
    ∀ (l : List (String × String)) (m : List (String × String)),
      (∀ ns, (alGet m ns).isSome → ns ∈ nsKeys a) →
      ∀ ns,
        (alGet (l.foldl (fun m pq =>
          match normalize_ns (some pq.2) with
          | some nsStr =>
            if (alGet a.namespaces nsStr).isSome ∧ alGet m nsStr = none
            then alUpdate m nsStr (fun _ => pq.1) else m
          | none => m) m) ns).isSome → ns ∈ nsKeys a := by
  intro l
  induction l with
  | nil => intro m hm ns h; exact hm ns h
  | cons pq rest ih =>
    intro m hm ns h
    refine ih _ ?_ ns h
    intro ns' h'
    dsimp only at h'
    cases hn : normalize_ns (some pq.2) with
    | none =>
      rw [hn] at h'
      exact hm ns' h'
    | some nsStr =>
      rw [hn] at h'
      dsimp only at h'
      by_cases hg : (alGet a.namespaces nsStr).isSome ∧ alGet m nsStr = none
      · rw [if_pos hg] at h'
        by_cases hns : ns' = nsStr
        · subst hns
          exact (alGet_isSome_iff_mem_keys _ _).mp hg.1
        · rw [alGet_update_ne _ _ _ _ (fun he => hns he.symm)] at h'
          exact hm ns' h'
      · rw [if_neg hg] at h'
        exact hm ns' h'

theorem fallbackPhase_keys (S : List String) (l : List String) (hl : ∀ x ∈ l, x ∈ S) :
    ∀ (start : List (String × String) × Nat),
      (∀ ns, (alGet start.1 ns).isSome → ns ∈ S) →
      ∀ ns, (alGet (fallbackPhase start l).1 ns).isSome → ns ∈ S := by
  induction l with
  | nil => intro start h ns hv; exact h ns hv
  | cons x rest ih =>
    intro start h ns hv
    have hstep : fallbackPhase start (x :: rest) =
        fallbackPhase (if alGet start.1 x = none
          then (alUpdate start.1 x (fun _ => make_short_id x start.2), start.2 + 1)
          else start) rest := by
      unfold fallbackPhase
      rw [List.foldl_cons]
    rw [hstep] at hv
    refine ih (fun y hy => hl y (by simp [hy])) _ ?_ ns hv
    intro ns' h'
    split at h'
    · by_cases hns : ns' = x
      · subst hns
        exact hl ns' (by simp)
      · rw [show (alUpdate start.1 x (fun _ => make_short_id x start.2), start.2 + 1).1 =
          alUpdate start.1 x (fun _ => make_short_id x start.2) from rfl] at h'
        rw [alGet_update_ne _ _ _ _ (fun he => hns he.symm)] at h'
        exact h ns' h'
    · exact h ns' h'

theorem build_id_map_keys (a : Analyzer) (prefixes : List (String × String)) :
    ∀ ns, (alGet (build_id_map a prefixes) ns).isSome → ns ∈ nsKeys a := by
  apply fallbackPhase_keys (nsKeys a) (sortStrings (nsKeys a))
    (fun x hx => (List.perm_insertionSort _ _).mem_iff.mp hx)
  exact prefixPhase_fold_keys a prefixes []
    (fun ns h => by cases (show alGet ([] : List (String × String)) ns = none from rfl) ▸ h)

/-- A usable (non-empty) id exists exactly for namespaces with a
Statistics entry, when all declared prefixes are non-empty. -/
theorem idLookup_some_of_mem (a : Analyzer) (prefixes : List (String × String))
    (hne : ∀ pq ∈ prefixes, pq.1 ≠ "") (ns : String) (h : ns ∈ nsKeys a) :
    idLookup (build_id_map a prefixes) ns =
      some ((alGet (build_id_map a prefixes) ns).getD "") := by
  have hs := C4_id_map_total a prefixes ns h
  cases hv : alGet (build_id_map a prefixes) ns with
  | none => rw [hv] at hs; cases hs
  | some v =>
    have hvne := build_id_map_vals a prefixes hne ns v hv
    unfold idLookup
    rw [hv]
    simp [hvne]

theorem idLookup_none_of_not_mem (a : Analyzer) (prefixes : List (String × String))
    (ns : String) (h : ns ∉ nsKeys a) :
    idLookup (build_id_map a prefixes) ns = none := by
  cases hv : alGet (build_id_map a prefixes) ns with
  | none => unfold idLookup; rw [hv]
  | some v =>
    exact absurd (build_id_map_keys a prefixes ns (by rw [hv]; rfl)) h

/-! ## Claim C6 -/

theorem build_edges_eq (splitUri : String → Option String) (g : List Triple)
    (a : Analyzer) (prefixes : List (String × String)) :
    (build_result_document splitUri g a prefixes).edges =
      mkEdges (attach_descriptions_from_graph splitUri g a)
        (build_id_map (attach_descriptions_from_graph splitUri g a) prefixes) :=
  rfl

/-- C6: every (source, destination) pair recorded in the Import Table
during a run yields an edge in the final edge list with
`reference_count ≥ 1` and `import = true`; registering an import always
also contributes at least weight 1 to the Reference Table for the pair.
(The declared prefixes of the merged graph are assumed non-empty, as the
prefix labels produced by the RDF library always are.) -/
theorem C6_import_edges (splitUri : String → Option String) (ops : List AnalyzerOp)
    (g : List Triple) (prefixes : List (String × String))
    (hne : ∀ pq ∈ prefixes, pq.1 ≠ "") (src d : String)
    (hd : d ∈ importsOf (runOps splitUri ops) src) :
    (∃ c, refWeight (runOps splitUri ops) src d = some c ∧ 1 ≤ c) ∧
    (∃ e ∈ (build_result_document splitUri g (runOps splitUri ops) prefixes).edges,
      e.source = (alGet (build_id_map
        (attach_descriptions_from_graph splitUri g (runOps splitUri ops)) prefixes) src).getD "" ∧
      e.target = (alGet (build_id_map
        (attach_descriptions_from_graph splitUri g (runOps splitUri ops)) prefixes) d).getD "" ∧
      1 ≤ e.reference_count ∧ e.importFlag = true) := by
  have hInv : Inv (runOps splitUri ops) := Inv_runOps splitUri ops
  obtain ⟨c, hc, hc1⟩ := hInv.impRef src d hd
  refine ⟨⟨c, hc, hc1⟩, ?_⟩
  -- entry of the import table
  cases hset : alGet (runOps splitUri ops).importsTable src with
  | none =>
    unfold importsOf at hd
    rw [hset] at hd
    cases hd
  | some dset =>
    have hdset : d ∈ dset := by
      unfold importsOf at hd
      rw [hset] at hd
      exact hd
    have hentry : (src, dset) ∈ (runOps splitUri ops).importsTable :=
      alGet_mem _ _ _ hset
    have hsrcmem : src ∈ nsKeys (runOps splitUri ops) := hInv.impSrc _ hentry
    have hdmem : d ∈ nsKeys (runOps splitUri ops) := hInv.impDst _ hentry d hdset
    have hsrcmem' : src ∈ nsKeys (attach_descriptions_from_graph splitUri g (runOps splitUri ops)) :=
      nsKeys_attach_sub splitUri g _ hsrcmem
    have hdmem' : d ∈ nsKeys (attach_descriptions_from_graph splitUri g (runOps splitUri ops)) :=
      nsKeys_attach_sub splitUri g _ hdmem
    have hsi := idLookup_some_of_mem _ prefixes hne src hsrcmem'
    have hdi := idLookup_some_of_mem _ prefixes hne d hdmem'
    -- reference-table entry for the pair, in the attach-extended state
    have hrefs : (attach_descriptions_from_graph splitUri g (runOps splitUri ops)).references =
        (runOps splitUri ops).references := attach_references splitUri g _
    cases hinner : alGet (runOps splitUri ops).references src with
    | none =>
      unfold refWeight at hc
      rw [hinner] at hc
      cases hc
    | some inner =>
      have hdc : alGet inner d = some c := by
        unfold refWeight at hc
        rw [hinner] at hc
        exact hc
      have hrentry : (src, inner) ∈
          (attach_descriptions_from_graph splitUri g (runOps splitUri ops)).references := by
        rw [hrefs]
        exact alGet_mem _ _ _ hinner
      have hdcmem : (d, c) ∈ inner := alGet_mem _ _ _ hdc
      have hp1 := refPhase_Pcnt
        (build_id_map (attach_descriptions_from_graph splitUri g (runOps splitUri ops)) prefixes)
        (attach_descriptions_from_graph splitUri g (runOps splitUri ops)).references
        src inner d c _ _ hrentry hdcmem hsi hdi
      have hientry : (src, dset) ∈
          (attach_descriptions_from_graph splitUri g (runOps splitUri ops)).importsTable := by
        rw [attach_importsTable]
        exact hentry
      have hp2 := impPhase_Pflag
        (build_id_map (attach_descriptions_from_graph splitUri g (runOps splitUri ops)) prefixes)
        (attach_descriptions_from_graph splitUri g (runOps splitUri ops)).importsTable
        src dset d c _ _ hientry hdset hsi hdi _ hp1
      obtain ⟨e, he, hw, hf⟩ := hp2
      have hewf := edgeWF_mkEdgeMap
        (attach_descriptions_from_graph splitUri g (runOps splitUri ops))
        (build_id_map (attach_descriptions_from_graph splitUri g (runOps splitUri ops)) prefixes)
      have hkey : ((((alGet (build_id_map
          (attach_descriptions_from_graph splitUri g (runOps splitUri ops)) prefixes) src).getD "",
          (alGet (build_id_map
          (attach_descriptions_from_graph splitUri g (runOps splitUri ops)) prefixes) d).getD "")), e) ∈
          mkEdgeMap (attach_descriptions_from_graph splitUri g (runOps splitUri ops))
            (build_id_map (attach_descriptions_from_graph splitUri g (runOps splitUri ops)) prefixes) :=
        alGet_mem _ _ _ he
      refine ⟨e, ?_, ?_, ?_, Nat.le_trans hc1 hw, hf⟩
      · rw [build_edges_eq]
        unfold mkEdges
        exact List.mem_map.mpr ⟨_, hkey, rfl⟩
      · exact (hewf _ hkey).1
      · exact (hewf _ hkey).2

theorem C6_witness :
    (∃ c, refWeight (runOps noSplit impOps) "http://a.org" "http://b.org" = some c ∧ 1 ≤ c) ∧
    (∃ e ∈ (build_result_document noSplit [] (runOps noSplit impOps) []).edges,
      e.source = (alGet (build_id_map
        (attach_descriptions_from_graph noSplit [] (runOps noSplit impOps)) []) "http://a.org").getD "" ∧
      e.target = (alGet (build_id_map
        (attach_descriptions_from_graph noSplit [] (runOps noSplit impOps)) []) "http://b.org").getD "" ∧
      1 ≤ e.reference_count ∧ e.importFlag = true) :=
  C6_import_edges noSplit impOps [] [] (by intro pq h; cases h) "http://a.org" "http://b.org"
    (by decide)

/-! ## The incoming and outgoing totals (claim C2) -/

theorem incStep_get (inc : List (String × Nat)) (dc : String × Nat) (N : String) :
    alGet (incStep inc dc) N =
      if dc.1 = N then (alGet inc N).map (fun v => v + dc.2) else alGet inc N := by
  unfold incStep
  by_cases hk : dc.1 = N
  · subst hk
    rw [if_pos rfl]
    by_cases hs : (alGet inc dc.1).isSome
    · rw [if_pos hs, alGet_update_self]
      cases hv : alGet inc dc.1 with
      | none => rw [hv] at hs; cases hs
      | some v => simp [hv]
    · rw [if_neg hs]
      cases hv : alGet inc dc.1 with
      | none => rfl
      | some v => rw [hv] at hs; exact absurd rfl hs
  · rw [if_neg hk]
    by_cases hs : (alGet inc dc.1).isSome
    · rw [if_pos hs]
      exact alGet_update_ne _ _ _ _ hk
    · rw [if_neg hs]

theorem incInner_get (ts : List (String × Nat)) :
    ∀ (inc : List (String × Nat)) (N : String),
      alGet (ts.foldl incStep inc) N =
        (alGet inc N).map
          (fun v => v + ((ts.filter (fun dc => dc.1 = N)).map (fun dc => dc.2)).sum) := by
  induction ts with
  | nil =>
    intro inc N
    cases h : alGet inc N <;> simp [h]
  | cons dc ts ih =>
    intro inc N
    rw [List.foldl_cons, ih (incStep inc dc) N, incStep_get]
    by_cases hk : dc.1 = N
    · rw [if_pos hk, List.filter_cons_of_pos (by simp [hk])]
      cases h : alGet inc N with
      | none => rfl
      | some v =>
        simp only [Option.map_some', List.map_cons, List.sum_cons]
        congr 1
        omega
    · rw [if_neg hk, List.filter_cons_of_neg (by simp [hk])]

theorem incOuter_get (l : List (String × List (String × Nat))) :
    ∀ (inc : List (String × Nat)) (N : String),
      alGet (l.foldl (fun inc st => st.2.foldl incStep inc) inc) N =
        (alGet inc N).map
          (fun v => v + (l.map (fun st =>
            ((st.2.filter (fun dc => dc.1 = N)).map (fun dc => dc.2)).sum)).sum) := by
  induction l with
  | nil =>
    intro inc N
    cases h : alGet inc N <;> simp [h]
  | cons st l ih =>
    intro inc N
    rw [List.foldl_cons, ih _ N, incInner_get]
    cases h : alGet inc N with
    | none => rfl
    | some v =>
      simp only [Option.map_some', List.map_cons, List.sum_cons]
      congr 1
      omega

/-- The `incoming` total stored for a namespace with a Statistics entry is
the sum of Reference-Table weights pointing at it. -/
theorem incomingMap_get (a : Analyzer) (N : String) (h : N ∈ nsKeys a) :
    alGet (incomingMap a) N =
      some ((a.references.map (fun st =>
        ((st.2.filter (fun dc => dc.1 = N)).map (fun dc => dc.2)).sum)).sum) := by
  unfold incomingMap
  rw [incOuter_get]
  have h0 : alGet (a.namespaces.map (fun p => (p.1, (fun _ => (0 : Nat)) p.1))) N =
      (alGet a.namespaces N).map (fun _ => 0) :=
    alGet_map_of_fst a.namespaces (fun _ => 0) N
  rw [show a.namespaces.map (fun p => (p.1, (0 : Nat))) =
    a.namespaces.map (fun p => (p.1, (fun _ => (0 : Nat)) p.1)) from rfl, h0]
  cases hv : alGet a.namespaces N with
  | none =>
    exact absurd ((alGet_isSome_iff_mem_keys _ _).mpr h) (by rw [hv]; simp)
  | some st =>
    simp

/-- The `outgoing` total stored for a namespace. -/
theorem outgoingMap_get (a : Analyzer) (N : String) :
    alGet (outgoingMap a) N =
      (alGet a.namespaces N).map
        (fun _ => sumVals ((alGet a.references N).getD [])) := by
  unfold outgoingMap
  exact alGet_map_of_fst a.namespaces
    (fun ns => sumVals ((alGet a.references ns).getD [])) N

theorem sum_split (l : List (String × Nat)) (q : String × Nat → Bool) :
    ((l.filter q).map (fun dc => dc.2)).sum +
      ((l.filter (fun x => !q x)).map (fun dc => dc.2)).sum =
      (l.map (fun dc => dc.2)).sum := by
  induction l with
  | nil => rfl
  | cons x l ih =>
    by_cases hq : q x
    · rw [List.filter_cons_of_pos hq, List.filter_cons_of_neg (by simp [hq])]
      simp only [List.map_cons, List.sum_cons]
      omega
    · rw [List.filter_cons_of_neg (by simpa using hq),
        List.filter_cons_of_pos (by simp [hq])]
      simp only [List.map_cons, List.sum_cons]
      omega

/-- The total Reference-Table weight from a namespace to destinations
without a Statistics entry (their edges are dropped by the builder). -/
def strayWeight (a : Analyzer) (N : String) : Nat :=
  ((((alGet a.references N).getD []).filter
    (fun dc => decide (dc.1 ∉ nsKeys a))).map (fun dc => dc.2)).sum

/-- Non-colliding ids: equality of assigned ids reflects equality of
namespaces. -/
def IdsInjective (a : Analyzer) (prefixes : List (String × String)) : Prop :=
  ∀ x ∈ nsKeys a, ∀ y ∈ nsKeys a,
    alGet (build_id_map a prefixes) x = alGet (build_id_map a prefixes) y → x = y

theorem id_getD_iff (a : Analyzer) (prefixes : List (String × String))
    (hinj : IdsInjective a prefixes) (N : String) (hN : N ∈ nsKeys a)
    (x : String) (hx : x ∈ nsKeys a) :
    ((alGet (build_id_map a prefixes) x).getD "" =
      (alGet (build_id_map a prefixes) N).getD "") ↔ x = N := by
  constructor
  · intro hgd
    apply hinj x hx N hN
    cases hxv : alGet (build_id_map a prefixes) x with
    | none => exact absurd (C4_id_map_total a prefixes x hx) (by rw [hxv]; simp)
    | some vx =>
      cases hNv : alGet (build_id_map a prefixes) N with
      | none => exact absurd (C4_id_map_total a prefixes N hN) (by rw [hNv]; simp)
      | some vN =>
        rw [hxv, hNv] at hgd
        simp only [Option.getD_some] at hgd
        rw [hgd]
  · intro hx; rw [hx]

theorem sum_map_zero {α : Type} (l : List α) : (l.map (fun _ => (0 : Nat))).sum = 0 := by
  induction l with
  | nil => rfl
  | cons x l ih => simp [ih]

theorem refEdgeDelta_target (a : Analyzer) (prefixes : List (String × String))
    (hne : ∀ pq ∈ prefixes, pq.1 ≠ "") (hinj : IdsInjective a prefixes)
    (N : String) (hN : N ∈ nsKeys a) (st : String × List (String × Nat))
    (hsrc : st.1 ∈ nsKeys a) :
    refEdgeDelta (build_id_map a prefixes)
      (fun k => decide (k.2 = (alGet (build_id_map a prefixes) N).getD "")) st =
      ((st.2.filter (fun dc => decide (dc.1 = N))).map (fun dc => dc.2)).sum := by
  unfold refEdgeDelta
  rw [idLookup_some_of_mem a prefixes hne st.1 hsrc]
  dsimp only
  rw [← if_sum_filter st.2 (fun dc => decide (dc.1 = N)) (fun dc => dc.2)]
  apply sum_map_congr
  intro dc _
  by_cases hm : dc.1 ∈ nsKeys a
  · rw [idLookup_some_of_mem a prefixes hne dc.1 hm]
    dsimp only
    by_cases heq : dc.1 = N
    · have h1 := (id_getD_iff a prefixes hinj N hN dc.1 hm).mpr heq
      simp [h1, heq]
    · have h1 : ¬((alGet (build_id_map a prefixes) dc.1).getD "" =
          (alGet (build_id_map a prefixes) N).getD "") :=
        fun hgd => heq ((id_getD_iff a prefixes hinj N hN dc.1 hm).mp hgd)
      simp [h1, heq]
  · rw [idLookup_none_of_not_mem a prefixes dc.1 hm]
    have hne2 : dc.1 ≠ N := fun he => hm (he ▸ hN)
    dsimp only
    simp [hne2]

theorem refEdgeDelta_source (a : Analyzer) (prefixes : List (String × String))
    (hne : ∀ pq ∈ prefixes, pq.1 ≠ "") (hinj : IdsInjective a prefixes)
    (N : String) (hN : N ∈ nsKeys a) (st : String × List (String × Nat))
    (hsrc : st.1 ∈ nsKeys a) :
    refEdgeDelta (build_id_map a prefixes)
      (fun k => decide (k.1 = (alGet (build_id_map a prefixes) N).getD "")) st =
      (if st.1 = N
       then ((st.2.filter (fun dc => decide (dc.1 ∈ nsKeys a))).map (fun dc => dc.2)).sum
       else 0) := by
  unfold refEdgeDelta
  rw [idLookup_some_of_mem a prefixes hne st.1 hsrc]
  dsimp only
  by_cases hst1 : st.1 = N
  · rw [if_pos hst1]
    rw [← if_sum_filter st.2 (fun dc => decide (dc.1 ∈ nsKeys a)) (fun dc => dc.2)]
    apply sum_map_congr
    intro dc _
    by_cases hm : dc.1 ∈ nsKeys a
    · rw [idLookup_some_of_mem a prefixes hne dc.1 hm]
      dsimp only
      have h1 := (id_getD_iff a prefixes hinj N hN st.1 hsrc).mpr hst1
      simp [h1, hm]
    · rw [idLookup_none_of_not_mem a prefixes dc.1 hm]
      dsimp only
      simp [hm]
  · rw [if_neg hst1]
    have h1 : ¬((alGet (build_id_map a prefixes) st.1).getD "" =
        (alGet (build_id_map a prefixes) N).getD "") :=
      fun hgd => hst1 ((id_getD_iff a prefixes hinj N hN st.1 hsrc).mp hgd)
    refine Eq.trans (sum_map_congr st.2 _ (fun _ => 0) ?_) (sum_map_zero st.2)
    intro dc _
    by_cases hm : dc.1 ∈ nsKeys a
    · rw [idLookup_some_of_mem a prefixes hne dc.1 hm]
      dsimp only
      simp [h1]
    · rw [idLookup_none_of_not_mem a prefixes dc.1 hm]

/-- Stored node totals versus edge sums, for an arbitrary analyzer state
with the structural invariant and an injective, non-empty id map. -/
theorem node_totals_general (a : Analyzer) (prefixes : List (String × String))
    (hInv : Inv a) (hne : ∀ pq ∈ prefixes, pq.1 ≠ "")
    (hinj : IdsInjective a prefixes) :
    ∀ n ∈ mkNodes a (build_id_map a prefixes) (incomingMap a) (outgoingMap a),
      n.incoming_references =
        edgeSum (fun e => decide (e.target = n.id)) (mkEdges a (build_id_map a prefixes)) ∧
      n.outgoing_references =
        edgeSum (fun e => decide (e.source = n.id)) (mkEdges a (build_id_map a prefixes))
          + strayWeight a n.namespace_ := by
  intro n hn
  obtain ⟨p, hps, hF⟩ := List.mem_map.mp hn
  have hp : p ∈ a.namespaces := (List.perm_insertionSort _ _).mem_iff.mp hps
  have hN : p.1 ∈ nsKeys a := List.mem_map.mpr ⟨p, hp, rfl⟩
  subst hF
  show (alGet (incomingMap a) p.1).getD 0 =
      edgeSum (fun e => decide (e.target = (alGet (build_id_map a prefixes) p.1).getD ""))
        (mkEdges a (build_id_map a prefixes)) ∧
    (alGet (outgoingMap a) p.1).getD 0 =
      edgeSum (fun e => decide (e.source = (alGet (build_id_map a prefixes) p.1).getD ""))
        (mkEdges a (build_id_map a prefixes)) + strayWeight a p.1
  have hewf := edgeWF_mkEdgeMap a (build_id_map a prefixes)
  constructor
  · rw [incomingMap_get a p.1 hN]
    show _ = edgeSum _ ((mkEdgeMap a (build_id_map a prefixes)).map (fun x => x.2))
    rw [edgeSum_of_keyed (mkEdgeMap a (build_id_map a prefixes))
      (fun k => decide (k.2 = (alGet (build_id_map a prefixes) p.1).getD ""))
      (fun e => decide (e.target = (alGet (build_id_map a prefixes) p.1).getD ""))
      (fun x hx => by dsimp only; rw [(hewf x hx).2])]
    rw [keyedRefSum_mkEdgeMap]
    simp only [Option.getD_some]
    apply sum_map_congr
    intro st hst
    exact (refEdgeDelta_target a prefixes hne hinj p.1 hN st (hInv.refSrc st hst)).symm
  · have hout := outgoingMap_get a p.1
    cases hv : alGet a.namespaces p.1 with
    | none =>
      exact absurd ((alGet_isSome_iff_mem_keys _ _).mpr hN) (by rw [hv]; simp)
    | some st0 =>
      rw [hv] at hout
      rw [hout]
      simp only [Option.map_some', Option.getD_some]
      show sumVals ((alGet a.references p.1).getD []) =
        edgeSum _ ((mkEdgeMap a (build_id_map a prefixes)).map (fun x => x.2)) + _
      rw [edgeSum_of_keyed (mkEdgeMap a (build_id_map a prefixes))
        (fun k => decide (k.1 = (alGet (build_id_map a prefixes) p.1).getD ""))
        (fun e => decide (e.source = (alGet (build_id_map a prefixes) p.1).getD ""))
        (fun x hx => by dsimp only; rw [(hewf x hx).1])]
      rw [keyedRefSum_mkEdgeMap]
      rw [sum_map_congr a.references _
        (fun st => if st.1 = p.1
          then ((st.2.filter (fun dc => decide (dc.1 ∈ nsKeys a))).map (fun dc => dc.2)).sum
          else 0)
        (fun st hst => refEdgeDelta_source a prefixes hne hinj p.1 hN st (hInv.refSrc st hst))]
      rw [sum_single_key a.references p.1
        (fun ts => ((ts.filter (fun dc => decide (dc.1 ∈ nsKeys a))).map (fun dc => dc.2)).sum)
        hInv.refsNodup]
      cases hri : alGet a.references p.1 with
      | none =>
        unfold strayWeight sumVals
        rw [hri]
        simp
      | some inner =>
        unfold strayWeight sumVals
        rw [hri]
        simp only [Option.getD_some]
        have hsplit := sum_split inner (fun dc => decide (dc.1 ∈ nsKeys a))
        have hcong : inner.filter (fun x => !decide (x.1 ∈ nsKeys a)) =
            inner.filter (fun dc => decide (dc.1 ∉ nsKeys a)) := by
          apply List.filter_congr
          intro x _
          simp
        rw [hcong] at hsplit
        omega

/-! ## Claim C2 -/

def cexNodeA : NodeDoc :=
  cexDocA.nodes.getD 0 ⟨"", "", "", none, 0, 0, 0, 0, [], [], 0, 0⟩

/-- C2 (corrected): for every run with non-empty declared prefix labels and a
collision-free id map, each node's `incoming_references` equals the sum of
`reference_count` over output edges targeting the node's id, while its
`outgoing_references` equals that sum over edges sourced at the node's id
PLUS the stray weight: the Reference-Table weight toward destinations that
never received a Statistics entry, whose edges the builder drops. The
original claim's pure-edge-sum equality for outgoing references fails. -/
theorem C2_node_totals (splitUri : String → Option String) (ops : List AnalyzerOp)
    (g : List Triple) (prefixes : List (String × String))
    (hne : ∀ pq ∈ prefixes, pq.1 ≠ "")
    (hinj : IdsInjective (attach_descriptions_from_graph splitUri g (runOps splitUri ops)) prefixes) :
    ∀ n ∈ (build_result_document splitUri g (runOps splitUri ops) prefixes).nodes,
      n.incoming_references =
        edgeSum (fun e => decide (e.target = n.id))
          (build_result_document splitUri g (runOps splitUri ops) prefixes).edges ∧
      n.outgoing_references =
        edgeSum (fun e => decide (e.source = n.id))
          (build_result_document splitUri g (runOps splitUri ops) prefixes).edges
          + strayWeight (attach_descriptions_from_graph splitUri g (runOps splitUri ops))
              n.namespace_ := by
  have hInv : Inv (attach_descriptions_from_graph splitUri g (runOps splitUri ops)) :=
    Inv_attach splitUri g _ (Inv_runOps splitUri ops)
  intro n hn
  rw [build_nodes_eq] at hn
  rw [build_edges_eq]
  exact node_totals_general _ prefixes hInv hne hinj n hn

theorem C2_witness :
    cexNodeA ∈ cexDocA.nodes ∧
    (cexNodeA.incoming_references =
        edgeSum (fun e => decide (e.target = cexNodeA.id)) cexDocA.edges ∧
      cexNodeA.outgoing_references =
        edgeSum (fun e => decide (e.source = cexNodeA.id)) cexDocA.edges
          + strayWeight (attach_descriptions_from_graph noSplit [] cexRunA)
              cexNodeA.namespace_) :=
  ⟨by decide,
   C2_node_totals noSplit [AnalyzerOp.rdfGraph "f" [cexTripleA]] [] []
     (fun pq h => absurd h (List.not_mem_nil pq))
     (by unfold IdsInjective; decide) cexNodeA (by decide)⟩

/-- C2 counterexample to the original claim: with the single triple
`cexTripleA` the only node has `outgoing_references = 1`, yet every edge
toward the unensured destination namespace is dropped, so the edge sum
sourced at its id is 0. -/
theorem C2_counterexample :
    cexDocA.nodes.map (fun n => (n.namespace_, n.id, n.outgoing_references)) =
      [("http://a.org/x", "x", 1)] ∧
    edgeSum (fun e => decide (e.source = "x")) cexDocA.edges = 0 ∧
    (1 : Nat) ≠ 0 := by decide

/-! ## Claim C3 -/

/-- Sum of the weights in one Reference-Table row whose destination
satisfies `P`. -/
def innerSumP (P : String → Bool) (inner : List (String × Nat)) : Nat :=
  ((inner.filter (fun dc => P dc.1)).map (fun dc => dc.2)).sum

/-- Sum of all Reference-Table weights whose destination satisfies `P`. -/
def refsSumP (P : String → Bool) (refs : List (String × List (String × Nat))) : Nat :=
  (refs.map (fun st => innerSumP P st.2)).sum

/-- The weight a `_register_reference` call adds for destinations
satisfying `P`: `weight` when the call records (both namespaces
normalize to distinct non-empty strings) and the destination satisfies
`P`, else `0`. -/
def regDelta (P : String → Bool) (rawSrc rawDst : Option String) (weight : Nat) : Nat :=
  match normalize_ns rawSrc, normalize_ns rawDst with
  | some src, some dst =>
    if src = "" ∨ dst = "" ∨ src = dst then 0
    else if P dst then weight else 0
  | _, _ => 0

theorem innerSumP_cons (P : String → Bool) (k : String) (v : Nat)
    (rest : List (String × Nat)) :
    innerSumP P ((k, v) :: rest) = (if P k then v else 0) + innerSumP P rest := by
  unfold innerSumP
  by_cases hp : P k
  · rw [List.filter_cons_of_pos (by simp [hp])]
    simp [hp]
  · rw [List.filter_cons_of_neg (by simp [hp])]
    simp [hp]

theorem innerSumP_alUpdate (P : String → Bool) (inner : List (String × Nat))
    (dst : String) (w : Nat) :
    innerSumP P (alUpdate inner dst (fun c => c.getD 0 + w)) =
      innerSumP P inner + (if P dst then w else 0) := by
  induction inner with
  | nil =>
    rw [show alUpdate ([] : List (String × Nat)) dst (fun c => c.getD 0 + w) =
      [(dst, (none : Option Nat).getD 0 + w)] from rfl]
    rw [innerSumP_cons]
    by_cases hp : P dst <;> simp [hp, innerSumP]
  | cons x rest ih =>
    obtain ⟨k, v⟩ := x
    rw [show alUpdate ((k, v) :: rest) dst (fun c => c.getD 0 + w) =
      (if k = dst then (k, (some v).getD 0 + w) :: rest
       else (k, v) :: alUpdate rest dst (fun c => c.getD 0 + w)) from rfl]
    by_cases hk : k = dst
    · rw [if_pos hk]
      subst hk
      rw [innerSumP_cons, innerSumP_cons]
      simp only [Option.getD_some]
      by_cases hp : P k
      · simp only [if_pos hp]
        omega
      · simp only [if_neg hp]
        omega
    · rw [if_neg hk, innerSumP_cons, innerSumP_cons, ih]
      omega

theorem refsSumP_cons (P : String → Bool) (k : String)
    (inner : List (String × Nat)) (rest : List (String × List (String × Nat))) :
    refsSumP P ((k, inner) :: rest) = innerSumP P inner + refsSumP P rest := by
  unfold refsSumP
  simp

theorem refsSumP_alUpdate (P : String → Bool)
    (refs : List (String × List (String × Nat))) (src : String)
    (f : Option (List (String × Nat)) → List (String × Nat)) (d : Nat)
    (hf : ∀ v, innerSumP P (f v) = innerSumP P (v.getD []) + d) :
    refsSumP P (alUpdate refs src f) = refsSumP P refs + d := by
  induction refs with
  | nil =>
    rw [show alUpdate ([] : List (String × List (String × Nat))) src f = [(src, f none)] from rfl]
    rw [refsSumP_cons]
    have h1 := hf none
    have h0 : innerSumP P (([] : List (String × Nat))) = 0 := rfl
    have h2 : refsSumP P ([] : List (String × List (String × Nat))) = 0 := rfl
    simp only [Option.getD_none] at h1
    omega
  | cons x rest ih =>
    obtain ⟨k, inner⟩ := x
    rw [show alUpdate ((k, inner) :: rest) src f =
      (if k = src then (k, f (some inner)) :: rest else (k, inner) :: alUpdate rest src f)
      from rfl]
    by_cases hk : k = src
    · rw [if_pos hk, refsSumP_cons, refsSumP_cons, hf (some inner)]
      simp only [Option.getD_some]
      omega
    · rw [if_neg hk, refsSumP_cons, refsSumP_cons, ih]
      omega

theorem refsSumP_register_reference (P : String → Bool) (a : Analyzer)
    (rs rd : Option String) (w : Nat) :
    refsSumP P (a.register_reference rs rd w).references =
      refsSumP P a.references + regDelta P rs rd w := by
  unfold Analyzer.register_reference regDelta
  cases h1 : normalize_ns rs with
  | none => simp
  | some src =>
    cases h2 : normalize_ns rd with
    | none => simp
    | some dst =>
      dsimp only
      by_cases hg : src = "" ∨ dst = "" ∨ src = dst
      · rw [if_pos hg, if_pos hg]
        simp
      · rw [if_neg hg, if_neg hg]
        dsimp only
        exact refsSumP_alUpdate P a.references src _ (if P dst then w else 0)
          (fun v => innerSumP_alUpdate P (v.getD []) dst w)

theorem refsSumP_register_import (P : String → Bool) (a : Analyzer)
    (rs rd : Option String) :
    refsSumP P (a.register_import rs rd).references =
      refsSumP P a.references + regDelta P rs rd 1 := by
  unfold Analyzer.register_import
  cases h1 : normalize_ns rs with
  | none => simp [regDelta, h1]
  | some src =>
    cases h2 : normalize_ns rd with
    | none => simp [regDelta, h1, h2]
    | some dst =>
      dsimp only
      by_cases hg : src = "" ∨ dst = "" ∨ src = dst
      · rw [if_pos hg]
        simp [regDelta, h1, h2, hg]
      · rw [if_neg hg]
        rw [refsSumP_register_reference]
        have hf1 := normalize_ns_fix rs src h1
        have hf2 := normalize_ns_fix rd dst h2
        simp [regDelta, h1, h2, hf1, hf2, hg]

theorem refsSumP_condreg (P : String → Bool) (a : Analyzer) (c : Prop)
    [Decidable c] (rs rd : Option String) (w : Nat) :
    refsSumP P (if c then a.register_reference rs rd w else a).references =
      refsSumP P a.references + (if c then regDelta P rs rd w else 0) := by
  by_cases h : c
  · rw [if_pos h, if_pos h, refsSumP_register_reference]
  · rw [if_neg h, if_neg h]
    omega

/-- Per-triple event count of `_process_dependencies_for_triple`: one per
detection rule that fires, restricted to destinations satisfying `P`. -/
def depEvents (splitUri : String → Option String) (P : String → Bool)
    (s p o : Term) : Nat :=
  let s_ns := if termIsUri s then get_namespace splitUri s else none
  let p_ns := if termIsUri p then get_namespace splitUri p else none
  let o_ns := if termIsUri o then get_namespace splitUri o else none
  (if truthy s_ns ∧ truthy p_ns ∧ s_ns ≠ p_ns then regDelta P s_ns p_ns 1 else 0) +
  (if p = RDF_type ∧ truthy s_ns ∧ truthy o_ns ∧ s_ns ≠ o_ns then regDelta P s_ns o_ns 1 else 0) +
  (if p ∈ DEP_PREDICATES ∧ truthy s_ns ∧ truthy o_ns ∧ s_ns ≠ o_ns then regDelta P s_ns o_ns 1 else 0)

theorem refsSumP_deps (splitUri : String → Option String) (P : String → Bool)
    (a : Analyzer) (s p o : Term) :
    refsSumP P (process_dependencies_for_triple splitUri a s p o).references =
      refsSumP P a.references + depEvents splitUri P s p o := by
  unfold process_dependencies_for_triple depEvents
  dsimp only
  rw [refsSumP_condreg, refsSumP_condreg, refsSumP_condreg]
  omega

theorem refs_condMod (b : Analyzer) (c : Prop) [Decidable c] (gn : Option String)
    (f : OntologyStats → OntologyStats) :
    (condMod b c gn f).references = b.references := by
  unfold condMod
  split
  · cases gn with
    | none => rfl
    | some sns =>
      show (if sns = "" then b else b.modifyStats (some sns) f).references = b.references
      split
      · rfl
      · exact modifyStats_references b (some sns) f
  · rfl

def tripleEvents (splitUri : String → Option String) (P : String → Bool)
    (t : Triple) : Nat :=
  depEvents splitUri P t.1 t.2.1 t.2.2

theorem refsSumP_processTriple (splitUri : String → Option String) (file : String)
    (P : String → Bool) (a : Analyzer) (t : Triple) :
    refsSumP P (processTriple splitUri file a t).references =
      refsSumP P a.references + tripleEvents splitUri P t := by
  show refsSumP P (process_dependencies_for_triple splitUri
    (condMod (condMod a (termIsUri t.1) (get_namespace splitUri t.1)
        (fun st => { st with files := setAdd st.files file, triples := st.triples + 1 }))
      (t.2.1 = RDF_type ∧ termIsUri t.1 ∧ termIsUri t.2.2)
      (get_namespace splitUri t.1) (classifyObject t.2.2)) t.1 t.2.1 t.2.2).references = _
  rw [refsSumP_deps, refs_condMod, refs_condMod]
  rfl

/-- Event count of one iteration of the `owl:imports` inner loop. -/
def ontoImpEvents (splitUri : String → Option String) (P : String → Bool)
    (onto_ns : Option String) (imported : Term) : Nat :=
  if termIsUri imported then regDelta P onto_ns (get_namespace splitUri imported) 1 else 0

theorem refsSumP_ontoImportStep (splitUri : String → Option String) (P : String → Bool)
    (onto_ns : Option String) (acc2 : Analyzer) (imported : Term) :
    refsSumP P (ontoImportStep splitUri onto_ns acc2 imported).references =
      refsSumP P acc2.references + ontoImpEvents splitUri P onto_ns imported := by
  unfold ontoImportStep ontoImpEvents
  by_cases h : termIsUri imported
  · rw [if_pos h, if_pos h]
    dsimp only
    rw [refsSumP_register_import, ensure_ns_references]
  · rw [if_neg h, if_neg h]
    omega

/-- Event count of one iteration of the ontology loop of
`process_rdf_graph`. -/
def ontoEvents (splitUri : String → Option String) (P : String → Bool)
    (g : List Triple) (onto : Term) : Nat :=
  if termIsUri onto then
    ((objectsOf g onto OWL_imports).map
      (ontoImpEvents splitUri P (get_namespace splitUri onto))).sum
  else 0

theorem refsSumP_ontoStep (splitUri : String → Option String) (filePath : String)
    (P : String → Bool) (g : List Triple) (acc : Analyzer) (onto : Term) :
    refsSumP P (ontoStep splitUri filePath g acc onto).references =
      refsSumP P acc.references + ontoEvents splitUri P g onto := by
  unfold ontoStep ontoEvents
  by_cases h : termIsUri onto
  · rw [if_pos h, if_pos h]
    dsimp only
    have hfm : refsSumP P ((objectsOf g onto OWL_imports).foldl
        (ontoImportStep splitUri (get_namespace splitUri onto))
        (acc.modifyStats (get_namespace splitUri onto)
          (fun st => { st with files := setAdd st.files filePath }))).references =
        refsSumP P (acc.modifyStats (get_namespace splitUri onto)
          (fun st => { st with files := setAdd st.files filePath })).references +
        ((objectsOf g onto OWL_imports).map
          (ontoImpEvents splitUri P (get_namespace splitUri onto))).sum :=
      foldl_measure (fun b => refsSumP P b.references)
        (ontoImportStep splitUri (get_namespace splitUri onto))
        (ontoImpEvents splitUri P (get_namespace splitUri onto))
        (fun b x => refsSumP_ontoImportStep splitUri P (get_namespace splitUri onto) b x)
        (objectsOf g onto OWL_imports) _
    rw [hfm, modifyStats_references]
  · rw [if_neg h, if_neg h]
    omega

/-- Event count of `process_rdf_graph` on one file. -/
def graphEvents (splitUri : String → Option String) (P : String → Bool)
    (g : List Triple) : Nat :=
  (g.map (tripleEvents splitUri P)).sum +
  ((subjectsOf g RDF_type OWL_Ontology).map (ontoEvents splitUri P g)).sum

theorem refsSumP_process_rdf_graph (splitUri : String → Option String)
    (filePath : String) (P : String → Bool) (g : List Triple) (a : Analyzer) :
    refsSumP P (process_rdf_graph splitUri filePath g a).references =
      refsSumP P a.references + graphEvents splitUri P g := by
  unfold process_rdf_graph graphEvents
  dsimp only
  have h1 : refsSumP P (g.foldl (processTriple splitUri filePath) a).references =
      refsSumP P a.references + (g.map (tripleEvents splitUri P)).sum :=
    foldl_measure (fun b => refsSumP P b.references) (processTriple splitUri filePath)
      (tripleEvents splitUri P)
      (fun b x => refsSumP_processTriple splitUri filePath P b x) g a
  have h2 : refsSumP P ((subjectsOf g RDF_type OWL_Ontology).foldl
      (ontoStep splitUri filePath g) (g.foldl (processTriple splitUri filePath) a)).references =
      refsSumP P (g.foldl (processTriple splitUri filePath) a).references +
      ((subjectsOf g RDF_type OWL_Ontology).map (ontoEvents splitUri P g)).sum :=
    foldl_measure (fun b => refsSumP P b.references) (ontoStep splitUri filePath g)
      (ontoEvents splitUri P g)
      (fun b x => refsSumP_ontoStep splitUri filePath P g b x)
      (subjectsOf g RDF_type OWL_Ontology) _
  rw [h2, h1]
  omega

/-- Event count of one iteration of the `xsd:import` loop. -/
def xsdImpEvents (P : String → Bool) (tns : String) (nsRaw : Option String) : Nat :=
  match normalize_ns nsRaw with
  | some ns => if ns = "" then 0 else regDelta P (some tns) (some ns) 1
  | none => 0

theorem refsSumP_xsdImportStep (P : String → Bool) (tns : String)
    (acc : Analyzer) (nsRaw : Option String) :
    refsSumP P (xsdImportStep tns acc nsRaw).references =
      refsSumP P acc.references + xsdImpEvents P tns nsRaw := by
  unfold xsdImportStep xsdImpEvents
  cases h : normalize_ns nsRaw with
  | none => simp
  | some ns =>
    dsimp only
    by_cases he : ns = ""
    · rw [if_pos he, if_pos he]
      omega
    · rw [if_neg he, if_neg he]
      rw [refsSumP_register_import, ensure_ns_references]

/-- Event count of `process_xsd` on one file. -/
def xsdEvents (P : String → Bool) (fileName : String) (targetNs : Option String)
    (importNss : List (Option String)) : Nat :=
  (importNss.map (xsdImpEvents P ((normalize_ns targetNs).getD ("file://" ++ fileName)))).sum

theorem refsSumP_process_xsd (P : String → Bool) (filePath fileName : String)
    (targetNs : Option String) (importNss : List (Option String)) (a : Analyzer) :
    refsSumP P (process_xsd filePath fileName targetNs importNss a).references =
      refsSumP P a.references + xsdEvents P fileName targetNs importNss := by
  unfold process_xsd xsdEvents
  dsimp only
  have hfm : refsSumP P (importNss.foldl
      (xsdImportStep ((normalize_ns targetNs).getD ("file://" ++ fileName)))
      (a.modifyStats (some ((normalize_ns targetNs).getD ("file://" ++ fileName)))
        (fun st => { st with files := setAdd st.files filePath }))).references =
      refsSumP P (a.modifyStats (some ((normalize_ns targetNs).getD ("file://" ++ fileName)))
        (fun st => { st with files := setAdd st.files filePath })).references +
      (importNss.map
        (xsdImpEvents P ((normalize_ns targetNs).getD ("file://" ++ fileName)))).sum :=
    foldl_measure (fun b => refsSumP P b.references)
      (xsdImportStep ((normalize_ns targetNs).getD ("file://" ++ fileName)))
      (xsdImpEvents P ((normalize_ns targetNs).getD ("file://" ++ fileName)))
      (fun b x => refsSumP_xsdImportStep P ((normalize_ns targetNs).getD ("file://" ++ fileName)) b x)
      importNss _
  rw [hfm, modifyStats_references]

/-- Event count of one accumulation step. -/
def opEvents (splitUri : String → Option String) (P : String → Bool) :
    AnalyzerOp → Nat
  | .rdfGraph _ g => graphEvents splitUri P g
  | .xsd _ fn tns imps => xsdEvents P fn tns imps

theorem refsSumP_runOp (splitUri : String → Option String) (P : String → Bool)
    (a : Analyzer) (op : AnalyzerOp) :
    refsSumP P (runOp splitUri a op).references =
      refsSumP P a.references + opEvents splitUri P op := by
  cases op with
  | rdfGraph f g => exact refsSumP_process_rdf_graph splitUri f P g a
  | xsd fp fn tns imps => exact refsSumP_process_xsd P fp fn tns imps a

/-- Total event count of a run: one per (triple, rule) pair whose
detection rule fired plus one per recording import registration, with
destination restricted to `P`. -/
def runEvents (splitUri : String → Option String) (P : String → Bool)
    (ops : List AnalyzerOp) : Nat :=
  (ops.map (opEvents splitUri P)).sum

theorem refsSumP_runOps (splitUri : String → Option String) (P : String → Bool)
    (ops : List AnalyzerOp) :
    refsSumP P (runOps splitUri ops).references = runEvents splitUri P ops := by
  unfold runOps runEvents
  have hfm : refsSumP P (ops.foldl (runOp splitUri) Analyzer.initState).references =
      refsSumP P Analyzer.initState.references + (ops.map (opEvents splitUri P)).sum :=
    foldl_measure (fun b => refsSumP P b.references) (runOp splitUri)
      (opEvents splitUri P) (fun b x => refsSumP_runOp splitUri P b x) ops Analyzer.initState
  rw [hfm]
  simp [Analyzer.initState, refsSumP]

theorem refEdgeDelta_total (a : Analyzer) (prefixes : List (String × String))
    (hne : ∀ pq ∈ prefixes, pq.1 ≠ "") (st : String × List (String × Nat))
    (hsrc : st.1 ∈ nsKeys a) :
    refEdgeDelta (build_id_map a prefixes) (fun _ => true) st =
      innerSumP (fun d => decide (d ∈ nsKeys a)) st.2 := by
  unfold refEdgeDelta innerSumP
  rw [idLookup_some_of_mem a prefixes hne st.1 hsrc]
  dsimp only
  rw [← if_sum_filter st.2 (fun dc => decide (dc.1 ∈ nsKeys a)) (fun dc => dc.2)]
  apply sum_map_congr
  intro dc _
  by_cases hm : dc.1 ∈ nsKeys a
  · rw [idLookup_some_of_mem a prefixes hne dc.1 hm]
    dsimp only
    simp [hm]
  · rw [idLookup_none_of_not_mem a prefixes dc.1 hm]
    dsimp only
    simp [hm]

theorem edges_total (a : Analyzer) (prefixes : List (String × String))
    (hInv : Inv a) (hne : ∀ pq ∈ prefixes, pq.1 ≠ "") :
    edgeSum (fun _ => true) (mkEdges a (build_id_map a prefixes)) =
      refsSumP (fun d => decide (d ∈ nsKeys a)) a.references := by
  unfold mkEdges
  rw [edgeSum_of_keyed (mkEdgeMap a (build_id_map a prefixes))
    (fun _ => true) (fun _ => true) (fun x hx => rfl)]
  rw [keyedRefSum_mkEdgeMap]
  unfold refsSumP
  apply sum_map_congr
  intro st hst
  exact refEdgeDelta_total a prefixes hne st (hInv.refSrc st hst)

/-- C3 (corrected): the sum of `reference_count` over all output edges
equals the number of recording events - detection-rule firings plus
recording import registrations - whose destination namespace ends up
with a Statistics entry. The original claim fails in both directions:
each recorded import also adds weight 1, and events toward a destination
namespace that never receives a Statistics entry are dropped from the
edge list. (Declared prefix labels are assumed non-empty, as the RDF
library always produces.) -/
theorem C3_conservation (splitUri : String → Option String) (ops : List AnalyzerOp)
    (g : List Triple) (prefixes : List (String × String))
    (hne : ∀ pq ∈ prefixes, pq.1 ≠ "") :
    edgeSum (fun _ => true)
        (build_result_document splitUri g (runOps splitUri ops) prefixes).edges =
      runEvents splitUri
        (fun d => decide (d ∈ nsKeys (attach_descriptions_from_graph splitUri g
          (runOps splitUri ops)))) ops := by
  rw [build_edges_eq]
  rw [edges_total _ prefixes (Inv_attach splitUri g _ (Inv_runOps splitUri ops)) hne]
  rw [attach_references]
  exact refsSumP_runOps splitUri _ ops

theorem C3_witness :
    edgeSum (fun _ => true) cexDocA.edges =
      runEvents noSplit
        (fun d => decide (d ∈ nsKeys (attach_descriptions_from_graph noSplit [] cexRunA)))
        [AnalyzerOp.rdfGraph "f" [cexTripleA]] :=
  C3_conservation noSplit [AnalyzerOp.rdfGraph "f" [cexTripleA]] [] []
    (fun pq h => absurd h (List.not_mem_nil pq))

/-- C3 counterexample to the original claim: on the single triple
`cexTripleA` exactly one detection rule fires (foreign predicate
namespace), but the destination namespace never gets a Statistics entry,
so its edge is dropped and the total edge reference count is 0, not 1. -/
theorem C3_counterexample :
    runEvents noSplit (fun _ => true) [AnalyzerOp.rdfGraph "f" [cexTripleA]] = 1 ∧
    edgeSum (fun _ => true) cexDocA.edges = 0 ∧
    (1 : Nat) ≠ 0 := by decide

/-! ## Claim C9 -/

/-- C9: keyword filtering replaces only the node list, the edge list and
the ontologies list of the result document. Both ranking lists are
computed by `build_result_document` before filtering and are left
unchanged, so every node of the unfiltered document - including any node
the keyword filter prunes - still appears in both ranking lists of the
final document. -/
theorem C9_filter_frame (splitUri : String → Option String) (ops : List AnalyzerOp)
    (g : List Triple) (prefixes : List (String × String))
    (metaOf : String → Option MetaRecord) (keywords : List String) :
    (apply_keyword_filter metaOf keywords
        (build_result_document splitUri g (runOps splitUri ops) prefixes)).most_referenced =
      (build_result_document splitUri g (runOps splitUri ops) prefixes).most_referenced ∧
    (apply_keyword_filter metaOf keywords
        (build_result_document splitUri g (runOps splitUri ops) prefixes)).largest_consumers =
      (build_result_document splitUri g (runOps splitUri ops) prefixes).largest_consumers ∧
    ∀ n ∈ (build_result_document splitUri g (runOps splitUri ops) prefixes).nodes,
      projIncoming n ∈ (apply_keyword_filter metaOf keywords
        (build_result_document splitUri g (runOps splitUri ops) prefixes)).most_referenced ∧
      projOutgoing n ∈ (apply_keyword_filter metaOf keywords
        (build_result_document splitUri g (runOps splitUri ops) prefixes)).largest_consumers := by
  have hmr : (apply_keyword_filter metaOf keywords
      (build_result_document splitUri g (runOps splitUri ops) prefixes)).most_referenced =
      (build_result_document splitUri g (runOps splitUri ops) prefixes).most_referenced := by
    unfold apply_keyword_filter
    split
    · rfl
    · rfl
  have hlc : (apply_keyword_filter metaOf keywords
      (build_result_document splitUri g (runOps splitUri ops) prefixes)).largest_consumers =
      (build_result_document splitUri g (runOps splitUri ops) prefixes).largest_consumers := by
    unfold apply_keyword_filter
    split
    · rfl
    · rfl
  refine ⟨hmr, hlc, ?_⟩
  intro n hn
  constructor
  · rw [hmr]
    show projIncoming n ∈ (sortByIncomingDesc (mkNodes
      (attach_descriptions_from_graph splitUri g (runOps splitUri ops))
      (build_id_map (attach_descriptions_from_graph splitUri g (runOps splitUri ops)) prefixes)
      (incomingMap (attach_descriptions_from_graph splitUri g (runOps splitUri ops)))
      (outgoingMap (attach_descriptions_from_graph splitUri g (runOps splitUri ops))))).map
        projIncoming
    rw [build_nodes_eq] at hn
    exact List.mem_map.mpr ⟨n, (List.perm_insertionSort _ _).mem_iff.mpr hn, rfl⟩
  · rw [hlc]
    show projOutgoing n ∈ (sortByOutgoingDesc (mkNodes
      (attach_descriptions_from_graph splitUri g (runOps splitUri ops))
      (build_id_map (attach_descriptions_from_graph splitUri g (runOps splitUri ops)) prefixes)
      (incomingMap (attach_descriptions_from_graph splitUri g (runOps splitUri ops)))
      (outgoingMap (attach_descriptions_from_graph splitUri g (runOps splitUri ops))))).map
        projOutgoing
    rw [build_nodes_eq] at hn
    exact List.mem_map.mpr ⟨n, (List.perm_insertionSort _ _).mem_iff.mpr hn, rfl⟩

/-- Sidecar metadata marking the single namespace of `cexRunA` with the
keyword `deprecated`. -/
def pruneMeta : String → Option MetaRecord :=
  fun ns => if ns = "http://a.org/x" then some ⟨["deprecated"]⟩ else none

theorem C9_witness :
    cexNodeA ∈ cexDocA.nodes ∧
    cexNodeA ∉ (apply_keyword_filter pruneMeta ["-deprecated"] cexDocA).nodes ∧
    (projIncoming cexNodeA ∈
        (apply_keyword_filter pruneMeta ["-deprecated"] cexDocA).most_referenced ∧
      projOutgoing cexNodeA ∈
        (apply_keyword_filter pruneMeta ["-deprecated"] cexDocA).largest_consumers) :=
  ⟨by decide, by decide,
   (C9_filter_frame noSplit [AnalyzerOp.rdfGraph "f" [cexTripleA]] [] []
      pruneMeta ["-deprecated"]).2.2 cexNodeA (by decide)⟩

end Onto
